import Mathlib

/-!
Verification of the GnuPG secret-key protection module (`protect.c`).

The development shallowly embeds the canonical-S-expression parser and the
key protection / unprotection / shadowing operations of `protect.c` over
byte lists (`Bytes := List Nat`, one `Nat` per octet).  Cryptographic
primitives that live outside this file's source (SHA-1, AES-CBC, the PRNG)
are passed in as explicit function parameters, so every theorem quantifies
over them; the randomness consumed by `do_encryption` is a 40-byte input.

Reading a byte beyond the end of a buffer is modelled as reading the value
0, matching the NUL terminator convention of the C buffers.
-/

namespace GnuPG

/-- Byte strings: one `Nat` (0..255) per octet. -/
abbrev Bytes := List Nat

/-- Error codes used by protect.c (`GNUPG_Invalid_Sexp`, etc.). -/
inductive Err where
  | InvalidSexp
  | UnknownSexp
  | UnsupportedAlgorithm
  | UnsupportedProtection
  | UnsupportedProtocol
  | CorruptedProtection
  | BadPassphrase
  | InvalidValue
  | OutOfCore
  | Bug
  deriving DecidableEq, Repr

/-- Byte at index `i`, reading 0 past the end (the C buffers' NUL terminator). -/
def byteAt (b : Bytes) (i : Nat) : Nat := b.getD i 0

/-- ASCII decimal digit test (`digitp` of the C source). -/
def digitp (c : Nat) : Bool := 48 ≤ c && c ≤ 57

/-- Digit-accumulation loop of `snext`:
`for (n=0; *s && *s != ':' && digitp (s); s++) n = n*10 + atoi_1 (s);`.
Returns the accumulated value and the rest of the input at the terminator. -/
def snextLoop : Bytes → Nat → Nat × Bytes
  | [], n => (n, [])
  | c :: rest, n =>
    if c ≠ 0 ∧ c ≠ 58 ∧ digitp c then snextLoop rest (n * 10 + (c - 48))
    else (n, c :: rest)

/-- Length header parser `snext`: reads a nonempty decimal length followed by
a colon, returning the length and the input just past the colon; `none`
models the C return value 0 (error). -/
def snext (s : Bytes) : Option (Nat × Bytes) :=
  let r := snextLoop s 0
  if r.1 = 0 then none
  else match r.2 with
       | 58 :: rest => some (r.1, rest)
       | _ => none

/-- Fuel-indexed byte-level skipper underlying both `sskip` and the
canon-length scanner: skip tokens while the depth is positive.  An open
paren increments the depth, a close decrements it, an atom is skipped via
`snext`.  With `strict = false` this is the loop of the C `sskip`; with
`strict = true` it additionally rejects a length field beginning with `0`,
which is the zero-prefix check of `gcry_sexp_canon_len`
(`GCRYERR_SEXP_ZERO_PREFIX`: canonical encoding forbids such lengths, and
`snext` would accept them).  The fuel only bounds the number of loop
iterations; each iteration consumes at least one byte, so fuel `s.length`
never runs out (`sskipF_fuelIrrel` below). -/
def sskipF (strict : Bool) : Nat → Bytes → Nat → Option Bytes
  | _, s, 0 => some s
  | _, [], _ + 1 => none
  | 0, _ :: _, _ + 1 => none
  | fuel + 1, c :: rest, d + 1 =>
    if c = 40 then sskipF strict fuel rest (d + 2)
    else if c = 41 then sskipF strict fuel rest d
    else if strict ∧ c = 48 then none
    else match snext (c :: rest) with
         | some (n, r) => sskipF strict fuel (r.drop n) (d + 1)
         | none => none

/-- S-expression skipper `sskip` of the C source: skip over the remainder of
an S-expression given `depth` open lists; `none` is `GNUPG_Invalid_Sexp`. -/
def sskip (s : Bytes) (depth : Nat) : Option Bytes := sskipF false s.length s depth

/-- Token matcher `smatch`: given the atom length `n` returned by `snext`,
succeed iff `n` equals the token length and the next bytes equal the token;
on success return the input advanced past the token. -/
def smatch (buf : Bytes) (n : Nat) (tok : Bytes) : Option Bytes :=
  if n = tok.length ∧ buf.take tok.length = tok then some (buf.drop tok.length)
  else none

/-- Modelled from the spec: `gcry_sexp_canon_len` (libgcrypt, not part of
this file's source).  Per spec §4.1 canon-length: "from a position at an
open paren, compute the total byte length of the complete well-formed
value.  Returns zero on malformation."  Canonical form additionally
forbids zero-prefixed length fields (`gcry_sexp_canon_len` fails with
`GCRYERR_SEXP_ZERO_PREFIX` on them), hence the strict skipper. -/
def canonLen (b : Bytes) : Nat :=
  match b with
  | 40 :: rest =>
    match sskipF true rest.length rest 1 with
    | some s' => b.length - s'.length
    | none => 0
  | _ => 0

/-- Leading-decimal-digits parser, modelling the C `strtoul (s, NULL, 10)`
as used on the iteration-count atom (which the surrounding parse constrains
to be followed by `)`; leading whitespace/sign forms are not exercised by
canonical buffers and theorems about the count assume pure digits). -/
def digitsVal : Bytes → Nat → Nat
  | [], n => n
  | c :: rest, n => if digitp c then digitsVal rest (n * 10 + (c - 48)) else n

/-- Decimal rendering (fuel-indexed helper), most significant digit first. -/
def toDecF : Nat → Nat → Bytes
  | 0, _ => []
  | fuel + 1, n => if n < 10 then [48 + n] else toDecF fuel (n / 10) ++ [48 + n % 10]

/-- ASCII decimal rendering of a natural number, as produced by `%d` /
`asprintf` in the C source. -/
def toDec (n : Nat) : Bytes := toDecF (n + 1) n

/-- Canonical atom encoding `N:payload`, used to build test inputs. -/
def atomE (p : Bytes) : Bytes := toDec p.length ++ 58 :: p

/-- Byte literal for the C string `"private-key"` (11 bytes). -/
def tokPrivateKey : Bytes := [112, 114, 105, 118, 97, 116, 101, 45, 107, 101, 121]

/-- Byte literal for the C string `"protected-private-key"` (21 bytes). -/
def tokProtectedPrivateKey : Bytes :=
  [112, 114, 111, 116, 101, 99, 116, 101, 100, 45,
   112, 114, 105, 118, 97, 116, 101, 45, 107, 101, 121]

/-- Byte literal for the C string `"shadowed-private-key"` (20 bytes). -/
def tokShadowedPrivateKey : Bytes :=
  [115, 104, 97, 100, 111, 119, 101, 100, 45,
   112, 114, 105, 118, 97, 116, 101, 45, 107, 101, 121]

/-- Byte literal for the C string `"public-key"` (10 bytes). -/
def tokPublicKey : Bytes := [112, 117, 98, 108, 105, 99, 45, 107, 101, 121]

/-- Byte literal for the C string `"protected"` (9 bytes). -/
def tokProtectedStr : Bytes := [112, 114, 111, 116, 101, 99, 116, 101, 100]

/-- Byte literal for the C string `"shadowed"` (8 bytes). -/
def tokShadowedStr : Bytes := [115, 104, 97, 100, 111, 119, 101, 100]

/-- Byte literal for the C string `"sha1"` (4 bytes). -/
def tokSha1 : Bytes := [115, 104, 97, 49]

/-- Byte literal for the C string `"hash"` (4 bytes). -/
def tokHash : Bytes := [104, 97, 115, 104]

/-- Byte literal for the C string `"rsa"` (3 bytes). -/
def tokRsa : Bytes := [114, 115, 97]

/-- Byte literal for the C string `"t1-v1"` (5 bytes). -/
def tokT1V1 : Bytes := [116, 49, 45, 118, 49]

/-- Byte literal for the C modestr `"openpgp-s2k3-sha1-aes-cbc"` (25 bytes). -/
def tokModestr : Bytes :=
  [111, 112, 101, 110, 112, 103, 112, 45, 115, 50, 107, 51, 45,
   115, 104, 97, 49, 45, 97, 101, 115, 45, 99, 98, 99]

/-- Byte literal for the C string `"(21:protected-"` (14 bytes). -/
def litProtHead : Bytes := [40, 50, 49, 58, 112, 114, 111, 116, 101, 99, 116, 101, 100, 45]

/-- Byte literal for the C string `"(11:private-key"` (15 bytes). -/
def litPrivHead : Bytes :=
  [40, 49, 49, 58, 112, 114, 105, 118, 97, 116, 101, 45, 107, 101, 121]

/-- Byte literal for the scaffold prefix
`"(9:protected25:openpgp-s2k3-sha1-aes-cbc((4:sha18:"` (50 bytes) of the
`asprintf` format in `do_encryption`. -/
def litProtScaffold1 : Bytes :=
  [40, 57, 58, 112, 114, 111, 116, 101, 99, 116, 101, 100, 50, 53, 58,
   111, 112, 101, 110, 112, 103, 112, 45, 115, 50, 107, 51, 45,
   115, 104, 97, 49, 45, 97, 101, 115, 45, 99, 98, 99,
   40, 40, 52, 58, 115, 104, 97, 49, 56, 58]

/-- Byte literal for the scaffold middle `"2:96)16:"` (8 bytes). -/
def litProtScaffold2 : Bytes := [50, 58, 57, 54, 41, 49, 54, 58]

/-- Byte literal for the plaintext trailer `")(4:hash4:sha120:"` (17 bytes)
built by `do_encryption`. -/
def litHashPart : Bytes :=
  [41, 40, 52, 58, 104, 97, 115, 104, 52, 58, 115, 104, 97, 49, 50, 48, 58]

/-- Byte literal for the C string `"(20:shadowed-private-key"` (24 bytes). -/
def litShadowHead : Bytes :=
  [40, 50, 48, 58, 115, 104, 97, 100, 111, 119, 101, 100, 45,
   112, 114, 105, 118, 97, 116, 101, 45, 107, 101, 121]

/-- Byte literal for the C string `"(8:shadowed5:t1-v1"` (18 bytes). -/
def litShadowList : Bytes :=
  [40, 56, 58, 115, 104, 97, 100, 111, 119, 101, 100, 53, 58, 116, 49, 45, 118, 49]

/-! ### Key derivation (`hash_passphrase`) -/

/-- Iteration-count decoding of S2K mode 3:
`count = (16ul + (s2kcount & 15)) << ((s2kcount >> 4) + 6)`. -/
def s2kDecodeCount (c : Nat) : Nat := (16 + c % 16) <<< (c / 16 + 6)

/-- Salt/passphrase feeding loop of one S2K pass (modes 1 and 3), given the
already clamped `count`:
repeatedly feed 8 salt bytes then the passphrase while `count > len2`,
subtracting `len2 = pwlen + 8`; finally feed `count` bytes of salt if
`count < 8`, else 8 salt bytes and `count - 8` passphrase bytes.
The fuel bounds the loop iterations; each iteration subtracts
`len2 ≥ 8 > 0` from `count`, so fuel `count` suffices (`s2kFeedF_fuelIrrel`). -/
def s2kFeedF (salt pw : Bytes) : Nat → Nat → Bytes
  | _, 0 => salt.take 0
  | 0, count + 1 =>
    -- fuel exhausted with a positive count: unreachable for fuel ≥ count
    -- since every iteration strictly decreases count; by then count ≤ len2
    if count + 1 < 8 then salt.take (count + 1)
    else salt.take 8 ++ pw.take (count + 1 - 8)
  | fuel + 1, count + 1 =>
    if count + 1 > pw.length + 8 then
      (salt.take 8 ++ pw) ++ s2kFeedF salt pw fuel (count + 1 - (pw.length + 8))
    else if count + 1 < 8 then salt.take (count + 1)
    else salt.take 8 ++ pw.take (count + 1 - 8)

/-- Material fed to the hash in one S2K pass for modes 1 and 3 (after the
count has been clamped). -/
def s2kFeed (salt pw : Bytes) (count : Nat) : Bytes := s2kFeedF salt pw count count

/-- Material fed to the hash in one pass of `hash_passphrase`
(not counting the `pass` preset zero bytes): mode 0 hashes only the
passphrase; modes 1 and 3 run the salted loop, mode 3 first decoding the
count octet and clamping it up to `len2 = pwlen + 8`. -/
def s2kMaterial (s2kmode : Nat) (salt pw : Bytes) (s2kcount : Nat) : Bytes :=
  if s2kmode = 1 ∨ s2kmode = 3 then
    let len2 := pw.length + 8
    let count := if s2kmode = 3 then max (s2kDecodeCount s2kcount) len2 else len2
    s2kFeed salt pw count
  else pw

/-- Output-filling loop of `hash_passphrase`
(`for (pass=0; used < keylen; pass++)`): each pass hashes `pass` zero bytes
followed by the pass material and copies
`i = min dlen (keylen - used)` digest bytes into the key.  `dlen` models
`gcry_md_get_algo_dlen (hashalgo)`.  The fuel bounds the number of passes;
`none` means the fuel was exhausted before `used` reached `keylen` (for
`dlen = 0` the C loop never terminates). -/
def hashPassLoop (H : Bytes → Bytes) (dlen : Nat) (mat : Bytes) (keylen : Nat) :
    Nat → Nat → Nat → Option Bytes
  | 0, _, used => if used < keylen then none else some []
  | fuel + 1, pass, used =>
    if used < keylen then
      let digest := H (List.replicate pass 0 ++ mat)
      let i := min dlen (keylen - used)
      match hashPassLoop H dlen mat keylen fuel (pass + 1) (used + i) with
      | some rest => some (digest.take i ++ rest)
      | none => none
    else some []

/-- Key derivation `hash_passphrase`.  The hash algorithm is modelled by the
pair `(H, dlen)`: digest function and digest length; the passphrase is a
NUL-free byte string (`pwlen = strlen (passphrase)` is its length); a
missing salt is `none` (NULL).  `.error .Bug` marks the case where the pass
loop fails to terminate within `keylen` passes, which cannot happen for
`dlen > 0` (claim C10). -/
def hash_passphrase (H : Bytes → Bytes) (dlen : Nat) (pw : Bytes)
    (hashalgo s2kmode : Nat) (s2ksalt : Option Bytes) (s2kcount : Nat)
    (keylen : Nat) : Except Err Bytes :=
  if (s2kmode ≠ 0 ∧ s2kmode ≠ 1 ∧ s2kmode ≠ 3) ∨ hashalgo = 0 ∨ keylen = 0 then
    .error .InvalidValue
  else if (s2kmode = 1 ∨ s2kmode = 3) ∧ s2ksalt = none then .error .InvalidValue
  else
    match hashPassLoop H dlen (s2kMaterial s2kmode (s2ksalt.getD []) pw s2kcount)
            keylen keylen 0 0 with
    | some key => .ok key
    | none => .error .Bug

/-! ### MIC (`calculate_mic`) -/

/-- Parameter-list walk of `calculate_mic` (`while (*s == '(')`): skip
`(name value)` sub-lists with two atoms each, returning the input at the
first byte that is not `(`.  Fuel bounds the iterations; each consumes at
least one byte. -/
def micPairsF : Nat → Bytes → Option Bytes
  | _, [] => some []
  | fuel, c :: rest =>
    if c = 40 then
      match fuel with
      | 0 => none
      | fuel + 1 =>
        match snext rest with
        | none => none
        | some (n, r) =>
          match snext (r.drop n) with
          | none => none
          | some (n2, r2) =>
            match r2.drop n2 with
            | [] => none
            | c3 :: r3 => if c3 = 41 then micPairsF fuel r3 else none
    else some (c :: rest)

/-- MIC calculation `calculate_mic`: locate the inner list after the
`private-key` wrapper and hash its bytes, both parentheses included.
Returns the SHA-1 digest `H span`. -/
def calculate_mic (H : Bytes → Bytes) (plainkey : Bytes) : Except Err Bytes :=
  match plainkey with
  | 40 :: s0 =>
    match snext s0 with
    | none => .error .InvalidSexp
    | some (n, s1) =>
      match smatch s1 n tokPrivateKey with
      | none => .error .UnknownSexp
      | some s2 =>
        match s2 with
        | 40 :: s3 =>
          -- hash_begin = s2; skip the algorithm name, then the pair loop
          match snext s3 with
          | none => .error .InvalidSexp
          | some (n2, s4) =>
            match micPairsF (s4.drop n2).length (s4.drop n2) with
            | none => .error .InvalidSexp
            | some s5 =>
              match s5 with
              | 41 :: s6 =>
                -- hash_end = one past the closing paren
                .ok (H (s2.take (s2.length - s6.length)))
              | _ => .error .InvalidSexp
        | _ => .error .UnknownSexp
  | _ => .error .InvalidSexp

/-! ### Protect encoder (`do_encryption`, `agent_protect`) -/

/-- Encryption step `do_encryption`.  `enc key iv m` models one AES-128-CBC
encryption of the buffer `m` (`gcry_cipher_encrypt` after `setkey`/`setiv`);
`rnd` is the `2*blklen + 8 = 40` byte output of `gcry_random_bytes` (IV,
then padding, then S2K salt).  Returns the canonical
`(protected MODESTR ((sha1 SALT 2:96) IV) CIPHERTEXT)` list. -/
def do_encryption (H : Bytes → Bytes) (enc : Bytes → Bytes → Bytes → Bytes)
    (protRegion pw sha1hash rnd : Bytes) : Except Err Bytes :=
  let blklen := 16
  let outlen := 2 + protRegion.length + 2 + 6 + 6 + 23 + 2 + blklen
  let enclen := outlen / blklen * blklen
  let iv := rnd.take blklen
  let pad := (rnd.drop blklen).take blklen
  let salt := (rnd.drop (2 * blklen)).take 8
  match hash_passphrase H 20 pw 2 3 (some salt) 96 16 with
  | .error e => .error e
  | .ok key =>
    let plain := 40 :: 40 :: protRegion ++ litHashPart ++ sha1hash ++ [41, 41] ++ pad
    let ct := enc key iv (plain.take enclen)
    .ok (litProtScaffold1 ++ salt ++ litProtScaffold2 ++ iv ++ [41] ++
         toDec enclen ++ 58 :: ct ++ [41])

/-- Offsets into the plaintext key recorded by the parsing phase of
`agent_protect` (`hash_begin`, `hash_end`, `prot_begin`, `prot_end`,
`real_end`, each as a byte offset from the start of the buffer). -/
structure PParse where
  hashBegin : Nat
  hashEnd : Nat
  protBegin : Nat
  protEnd : Nat
  realEnd : Nat
  deriving DecidableEq, Repr

/-- Parameter-list loop of `agent_protect`
(`for (i=0; (c=protect_info[infidx].parmlist[i]); i++)`): each iteration
requires a sub-list `(c VALUE)` whose name is the single character `c`,
recording `prot_begin` at the opening paren of parameter `prot_from` and
`prot_end` at the closing paren of parameter `prot_to`.  Returns the
updated marks, the position after the loop and the remaining input. -/
def protParmLoop : List Nat → Nat → Nat → Nat → Bytes → Nat →
    Option Nat × Option Nat → Except Err (Option Nat × Option Nat × Nat × Bytes)
  | [], _, _, _, s, pos, marks => .ok (marks.1, marks.2, pos, s)
  | c :: parms, i, protFrom, protTo, s, pos, marks =>
    let pb := if i = protFrom then some pos else marks.1
    match s with
    | [] => .error .InvalidSexp
    | c0 :: s1 =>
      if c0 = 40 then
        match snext s1 with
        | none => .error .InvalidSexp
        | some (n, s2) =>
          if n = 1 ∧ byteAt s2 0 = c then
            let pos2 := pos + 1 + (s1.length - s2.length) + 1
            match snext (s2.drop 1) with
            | none => .error .InvalidSexp
            | some (n2, s3) =>
              let pos3 := pos2 + (s2.length - 1 - s3.length) + n2
              match s3.drop n2 with
              | [] => .error .InvalidSexp
              | c4 :: s4 =>
                if c4 = 41 then
                  let pe := if i = protTo then some pos3 else marks.2
                  protParmLoop parms (i + 1) protFrom protTo s4 (pos3 + 1) (pb, pe)
                else .error .InvalidSexp
          else .error .InvalidSexp
      else .error .InvalidSexp

/-- Parsing phase of `agent_protect` (its body up to the `sskip` that finds
`real_end`): checks the `(private-key (ALGO (p V)...))` shape against the
protection table (single entry `rsa`, parmlist `nedpqu`, protected range
2..5) and records the offsets later used to assemble the output. -/
def protectParse (k : Bytes) : Except Err PParse :=
  match k with
  | [] => .error .InvalidSexp
  | ck :: s0 =>
    if ck ≠ 40 then .error .InvalidSexp
    else
    match snext s0 with
    | none => .error .InvalidSexp
    | some (n, s1) =>
      match smatch s1 n tokPrivateKey with
      | none => .error .UnknownSexp
      | some s2 =>
        match s2 with
        | [] => .error .UnknownSexp
        | c2 :: s3 =>
          if c2 ≠ 40 then .error .UnknownSexp
          else
          let hashBegin := k.length - (s2.length : Nat)
          match snext s3 with
          | none => .error .InvalidSexp
          | some (n2, s4) =>
            match smatch s4 n2 tokRsa with
            | none => .error .UnsupportedAlgorithm
            | some s5 =>
              match protParmLoop [110, 101, 100, 112, 113, 117] 0 2 5 s5
                      (k.length - s5.length) (none, none) with
              | .error e => .error e
              | .ok (pb, pe, pos, s6) =>
                match pb, pe, s6 with
                | some protBegin, some protEnd, c6 :: s7 =>
                  if c6 = 41 then
                    -- hash_end = s (the inner closing paren); skip to the end
                    match sskip s7 1 with
                    | none => .error .InvalidSexp
                    | some s8 =>
                      .ok ⟨hashBegin, pos, protBegin, protEnd,
                           k.length - s8.length - 1⟩
                  else .error .InvalidSexp
                | _, _, _ => .error .InvalidSexp

/-- Key protection `agent_protect`: parse the plaintext key, hash the inner
list (`hash_begin .. hash_end` inclusive), encrypt the protected parameter
span (`prot_begin .. prot_end` inclusive) and assemble
`"(21:protected-" ++ plainkey[4 .. prot_begin) ++ protected ++
plainkey[prot_end+1 .. real_end]`.  Returns the buffer and `*resultlen`. -/
def agent_protect (H : Bytes → Bytes) (enc : Bytes → Bytes → Bytes → Bytes)
    (rnd k pw : Bytes) : Except Err (Bytes × Nat) :=
  match protectParse k with
  | .error e => .error e
  | .ok pp =>
    let hashvalue := H ((k.drop pp.hashBegin).take (pp.hashEnd + 1 - pp.hashBegin))
    let protRegion := (k.drop pp.protBegin).take (pp.protEnd + 1 - pp.protBegin)
    match do_encryption H enc protRegion pw hashvalue rnd with
    | .error e => .error e
    | .ok protectedList =>
      let res := litProtHead ++ (k.drop 4).take (pp.protBegin - 4) ++
                 protectedList ++ (k.drop (pp.protEnd + 1)).take (pp.realEnd - pp.protEnd)
      .ok (res, 10 + pp.protBegin + protectedList.length + (pp.realEnd - pp.protEnd))

/-! ### Unprotect decoder (`do_decryption`, `merge_lists`, `agent_unprotect`) -/

/-- Decryption step `do_decryption`.  `dec key iv c` models one AES-128-CBC
decryption (`gcry_cipher_decrypt`); `ct` holds the `protectedlen` ciphertext
bytes.  After decrypting, the quick check requires (as written in the C,
with `&&`) that not both of the first two plaintext bytes differ from `(`,
and the canonical length of the plaintext must be non-zero and within one
block of the ciphertext length. -/
def do_decryption (H : Bytes → Bytes) (dec : Bytes → Bytes → Bytes → Bytes)
    (ct pw s2ksalt : Bytes) (s2kcount : Nat) (iv : Bytes) : Except Err Bytes :=
  let blklen := 16
  let protectedlen := ct.length
  if protectedlen < 4 ∨ protectedlen % blklen ≠ 0 then .error .CorruptedProtection
  else
    match hash_passphrase H 20 pw 2 3 (some s2ksalt) s2kcount 16 with
    | .error e => .error e
    | .ok key =>
      let outbuf := (dec key iv ct).take protectedlen
      if byteAt outbuf 0 ≠ 40 ∧ byteAt outbuf 1 ≠ 40 then .error .BadPassphrase
      else
        let reallen := canonLen outbuf
        if reallen = 0 ∨ reallen + blklen < protectedlen then .error .BadPassphrase
        else .ok outbuf

/-- List merging `merge_lists`: rebuild the plaintext key from the protected
key (replacing the list at `replacepos`) and the decrypted parameter list,
extracting the transported MIC.  The cleartext parameter walk is the same
`while (*s == '(')` two-atom loop as in `calculate_mic` (`micPairsF`).
Returns the 20 MIC bytes and the merged list.  `.error .Bug` also stands
for the C `assert` on the byte at `replacepos`. -/
def merge_lists (protectedkey : Bytes) (replacepos : Nat) (cleartext : Bytes) :
    Except Err (Bytes × Bytes) :=
  if replacepos < 26 then .error .Bug
  else if canonLen protectedkey = 0 then .error .Bug
  else if canonLen cleartext = 0 then .error .Bug
  else
    let head := litPrivHead ++ (protectedkey.drop 25).take (replacepos - 25)
    if byteAt cleartext 0 ≠ 40 ∧ byteAt cleartext 1 ≠ 40 then .error .Bug
    else
      let s := cleartext.drop 2
      match micPairsF s.length s with
      | none => .error .InvalidSexp
      | some s1 =>
        match s1 with
        | 41 :: s2 =>
          let parms := s.take (s.length - s1.length)
          -- the MIC intermezzo: (hash sha1 <20 bytes>)
          match s2 with
          | 40 :: s3 =>
            match snext s3 with
            | none => .error .InvalidSexp
            | some (n, s4) =>
              match smatch s4 n tokHash with
              | none => .error .InvalidSexp
              | some s5 =>
                match snext s5 with
                | none => .error .InvalidSexp
                | some (n2, s6) =>
                  match smatch s6 n2 tokSha1 with
                  | none => .error .InvalidSexp
                  | some s7 =>
                    match snext s7 with
                    | none => .error .InvalidSexp
                    | some (n3, s8) =>
                      if n3 ≠ 20 then .error .InvalidSexp
                      else
                        let sha1hash := s8.take 20
                        match s8.drop 20 with
                        | 41 :: _ =>
                          -- skip the protected list element in the original
                          match protectedkey.drop replacepos with
                          | 40 :: t1 =>
                            match sskip t1 1 with
                            | none => .error .InvalidSexp
                            | some t2 =>
                              match sskip t2 2 with
                              | none => .error .InvalidSexp
                              | some t3 =>
                                let tailSpan := t2.take (t2.length - t3.length)
                                .ok (sha1hash, head ++ parms ++ tailSpan)
                          | _ => .error .Bug
                        | _ => .error .InvalidSexp
          | _ => .error .InvalidSexp
        | _ => .error .InvalidSexp

/-- Search loop of `agent_unprotect` for the sub-list whose first atom is
`protected` (`for (;;) ...`), returning the offset of its opening paren
(`prot_begin`) and the input just past the matched atom.  The fuel bounds
the iterations (each consumes at least three bytes); `.error .Bug` marks
fuel exhaustion, unreachable for fuel ≥ input length. -/
def findProtF : Nat → Bytes → Nat → Except Err (Nat × Bytes)
  | fuel, 40 :: s1, pos =>
    match snext s1 with
    | none => .error .InvalidSexp
    | some (n, s2) =>
      match smatch s2 n tokProtectedStr with
      | some s3 => .ok (pos, s3)
      | none =>
        match fuel with
        | 0 => .error .Bug
        | fuel + 1 =>
          match sskip (s2.drop n) 1 with
          | none => .error .InvalidSexp
          | some s4 => findProtF fuel s4 (pos + (s1.length + 1 - s4.length))
  | _, _, _ => .error .InvalidSexp

/-- Key unprotection `agent_unprotect`: parse the
`(protected-private-key (ALGO ...))` wrapper, find and validate the
`protected` list, decrypt, merge the plaintext parameters back and verify
the MIC.  Returns the plaintext key and `*resultlen` (its canonical
length). -/
def agent_unprotect (H : Bytes → Bytes) (dec : Bytes → Bytes → Bytes → Bytes)
    (protectedkey pw : Bytes) : Except Err (Bytes × Nat) :=
  match protectedkey with
  | 40 :: s0 =>
    match snext s0 with
    | none => .error .InvalidSexp
    | some (n, s1) =>
      match smatch s1 n tokProtectedPrivateKey with
      | none => .error .UnknownSexp
      | some s2 =>
        match s2 with
        | 40 :: s3 =>
          match snext s3 with
          | none => .error .InvalidSexp
          | some (n2, s4) =>
            match smatch s4 n2 tokRsa with
            | none => .error .UnsupportedAlgorithm
            | some s5 =>
              match findProtF s5.length s5 (protectedkey.length - s5.length) with
              | .error e => .error e
              | .ok (protBeginPos, t0) =>
                match snext t0 with
                | none => .error .InvalidSexp
                | some (nm, t1) =>
                  match smatch t1 nm tokModestr with
                  | none => .error .UnsupportedProtection
                  | some t2 =>
                    if byteAt t2 0 = 40 ∧ byteAt t2 1 = 40 then
                      match snext (t2.drop 2) with
                      | none => .error .InvalidSexp
                      | some (ns, t3) =>
                        match smatch t3 ns tokSha1 with
                        | none => .error .UnsupportedProtection
                        | some t4 =>
                          match snext t4 with
                          | none => .error .CorruptedProtection
                          | some (nsalt, t5) =>
                            if nsalt ≠ 8 then .error .CorruptedProtection
                            else
                              let s2ksalt := t5.take 8
                              match snext (t5.drop 8) with
                              | none => .error .CorruptedProtection
                              | some (ncnt, t6) =>
                                if byteAt t6 ncnt ≠ 41 then .error .InvalidSexp
                                else
                                  let s2kcount := digitsVal t6 0
                                  if s2kcount = 0 then .error .CorruptedProtection
                                  else
                                    match snext (t6.drop (ncnt + 1)) with
                                    | none => .error .CorruptedProtection
                                    | some (niv, t7) =>
                                      if niv ≠ 16 then .error .CorruptedProtection
                                      else
                                        let iv := t7.take 16
                                        match t7.drop 16 with
                                        | 41 :: t8 =>
                                          match snext t8 with
                                          | none => .error .InvalidSexp
                                          | some (nct, t9) =>
                                            match do_decryption H dec (t9.take nct)
                                                    pw s2ksalt s2kcount iv with
                                            | .error e => .error e
                                            | .ok cleartext =>
                                              match merge_lists protectedkey
                                                      protBeginPos cleartext with
                                              | .error e => .error e
                                              | .ok (sha1hash, final) =>
                                                match calculate_mic H final with
                                                | .error e => .error e
                                                | .ok mic2 =>
                                                  if sha1hash ≠ mic2.take 20 then
                                                    .error .CorruptedProtection
                                                  else .ok (final, canonLen final)
                                        | _ => .error .InvalidSexp
                    else .error .InvalidSexp
        | _ => .error .UnknownSexp
  | _ => .error .InvalidSexp

/-! ### Classifier (`agent_private_key_type`) -/

/-- Private-key classification result (`PRIVATE_KEY_UNKNOWN` etc.). -/
inductive KeyType where
  | unknown
  | clear
  | protectedKey
  | shadowed
  deriving DecidableEq, Repr

/-- Key classifier `agent_private_key_type`: inspect the top-level atom. -/
def agent_private_key_type (privatekey : Bytes) : KeyType :=
  match privatekey with
  | [] => .unknown
  | ck :: s0 =>
    if ck ≠ 40 then .unknown
    else
    match snext s0 with
    | none => .unknown
    | some (n, s1) =>
      if (smatch s1 n tokProtectedPrivateKey).isSome then .protectedKey
      else if (smatch s1 n tokShadowedPrivateKey).isSome then .shadowed
      else if (smatch s1 n tokPrivateKey).isSome then .clear
      else .unknown

/-! ### Shadow transform (`agent_shadow_key`, `agent_get_shadow_info`) -/

/-- Parameter walk of `agent_shadow_key` (`while (*s != ')')`): skip
`(name value)` sub-lists until the closing paren of the algorithm list,
returning the input at that paren.  Fuel bounds the iterations. -/
def shadowPairsF : Nat → Bytes → Option Bytes
  | _, [] => none
  | fuel, c :: s1 =>
    if c = 41 then some (c :: s1)
    else if c = 40 then
      match fuel with
      | 0 => none
      | fuel + 1 =>
        match snext s1 with
        | none => none
        | some (n, s2) =>
          match snext (s2.drop n) with
          | none => none
          | some (n2, s3) =>
            match s3.drop n2 with
            | [] => none
            | c4 :: s4 => if c4 = 41 then shadowPairsF fuel s4 else none
    else none

/-- Shadow-key construction `agent_shadow_key`: walk the public key up to
the closing paren of its algorithm list (`point`) and emit
`"(20:shadowed-private-key" ++ pubkey[14 .. point) ++
"(8:shadowed5:t1-v1" ++ shadow_info ++ ")" ++ pubkey[point ..]`. -/
def agent_shadow_key (pubkey shadow_info : Bytes) : Except Err Bytes :=
  let pubkey_len := canonLen pubkey
  let shadow_info_len := canonLen shadow_info
  if pubkey_len = 0 ∨ shadow_info_len = 0 then .error .InvalidValue
  else
    match pubkey with
    | [] => .error .InvalidSexp
    | ck :: s0 =>
      if ck ≠ 40 then .error .InvalidSexp
      else
      match snext s0 with
      | none => .error .InvalidSexp
      | some (n, s1) =>
        match smatch s1 n tokPublicKey with
        | none => .error .UnknownSexp
        | some s2 =>
          match s2 with
          | [] => .error .UnknownSexp
          | c2 :: s3 =>
            if c2 ≠ 40 then .error .UnknownSexp
            else
            match snext s3 with
            | none => .error .InvalidSexp
            | some (n2, s4) =>
              match shadowPairsF (s4.drop n2).length (s4.drop n2) with
              | none => .error .InvalidSexp
              | some s5 =>
                let point := pubkey.length - s5.length
                .ok (litShadowHead ++ (pubkey.drop 14).take (point - 14) ++
                     litShadowList ++ shadow_info.take shadow_info_len ++ [41] ++
                     (pubkey.drop point).take (pubkey_len - point))

/-- Search loop of `agent_get_shadow_info` for the sub-list whose first
atom is `shadowed`; a closing paren first means no such list
(`GNUPG_Unknown_Sexp`).  Fuel bounds the iterations; `.error .Bug` marks
exhaustion, unreachable for fuel ≥ input length. -/
def findShadowedF : Nat → Bytes → Except Err Bytes
  | _, [] => .error .InvalidSexp
  | fuel, c :: s1 =>
    if c = 41 then .error .UnknownSexp
    else if c = 40 then
      match snext s1 with
      | none => .error .InvalidSexp
      | some (n, s2) =>
        match smatch s2 n tokShadowedStr with
        | some s3 => .ok s3
        | none =>
          match fuel with
          | 0 => .error .Bug
          | fuel + 1 =>
            match snext (s2.drop n) with
            | none => .error .InvalidSexp
            | some (n2, s3) =>
              match s3.drop n2 with
              | [] => .error .InvalidSexp
              | c4 :: s4 => if c4 = 41 then findShadowedF fuel s4 else .error .InvalidSexp
    else .error .InvalidSexp

/-- Locator extraction `agent_get_shadow_info`: walk a shadowed key to the
`(shadowed t1-v1 ...)` list and return the borrowed pointer to the locator,
modelled as the suffix of the input starting at its opening paren. -/
def agent_get_shadow_info (shadowkey : Bytes) : Except Err Bytes :=
  match shadowkey with
  | 40 :: s0 =>
    match snext s0 with
    | none => .error .InvalidSexp
    | some (n, s1) =>
      match smatch s1 n tokShadowedPrivateKey with
      | none => .error .UnknownSexp
      | some s2 =>
        match s2 with
        | 40 :: s3 =>
          match snext s3 with
          | none => .error .InvalidSexp
          | some (n2, s4) =>
            match findShadowedF (s4.drop n2).length (s4.drop n2) with
            | .error e => .error e
            | .ok s5 =>
              match snext s5 with
              | none => .error .InvalidSexp
              | some (n3, s6) =>
                match smatch s6 n3 tokT1V1 with
                | some s7 =>
                  if byteAt s7 0 = 40 then .ok s7 else .error .InvalidSexp
                | none => .error .UnsupportedProtocol
        | _ => .error .UnknownSexp
  | _ => .error .InvalidSexp

/-! ### Caller-visible output locations (for the frame-effect claim)

The C functions receive `result` / `resultlen` out-pointers.  The wrappers
below thread the values held at those locations through the call, writing
them exactly where the C code writes through the pointers.  In
`agent_protect` and `agent_shadow_key` the final output allocation
(`xtrymalloc`) is the one fallible allocation that happens *after* a write
through an out-pointer; `allocOk` says whether it succeeds (all earlier
allocation failures abort before any out-pointer write, so they are
represented by the ordinary error paths). -/

/-- Out-pointer wrapper for `agent_protect`: the C writes `*resultlen`, then
`*result = p = xtrymalloc (*resultlen)` — both before the NULL check. -/
def agent_protect_locs (H : Bytes → Bytes) (enc : Bytes → Bytes → Bytes → Bytes)
    (rnd k pw : Bytes) (allocOk : Bool) (loc : Option Bytes × Nat) :
    Except Err Unit × (Option Bytes × Nat) :=
  match protectParse k with
  | .error e => (.error e, loc)
  | .ok pp =>
    let hashvalue := H ((k.drop pp.hashBegin).take (pp.hashEnd + 1 - pp.hashBegin))
    let protRegion := (k.drop pp.protBegin).take (pp.protEnd + 1 - pp.protBegin)
    match do_encryption H enc protRegion pw hashvalue rnd with
    | .error e => (.error e, loc)
    | .ok protectedList =>
      let rlen := 10 + pp.protBegin + protectedList.length + (pp.realEnd - pp.protEnd)
      if allocOk then
        let res := litProtHead ++ (k.drop 4).take (pp.protBegin - 4) ++
                   protectedList ++ (k.drop (pp.protEnd + 1)).take (pp.realEnd - pp.protEnd)
        (.ok (), (some res, rlen))
      else (.error .OutOfCore, (none, rlen))

/-- Out-pointer wrapper for `agent_unprotect`: the C writes `*result` and
`*resultlen` only after every check has passed. -/
def agent_unprotect_locs (H : Bytes → Bytes) (dec : Bytes → Bytes → Bytes → Bytes)
    (protectedkey pw : Bytes) (loc : Option Bytes × Nat) :
    Except Err Unit × (Option Bytes × Nat) :=
  match agent_unprotect H dec protectedkey pw with
  | .error e => (.error e, loc)
  | .ok (r, len) => (.ok (), (some r, len))

/-- Out-pointer wrapper for `agent_shadow_key`: the C writes
`*result = p = xtrymalloc (n)` before the NULL check. -/
def agent_shadow_key_locs (pubkey shadow_info : Bytes) (allocOk : Bool)
    (loc : Option Bytes) : Except Err Unit × Option Bytes :=
  match agent_shadow_key pubkey shadow_info with
  | .error e => (.error e, loc)
  | .ok res => if allocOk then (.ok (), some res) else (.error .OutOfCore, none)

/-! ## Parser lemmas -/

/-- Value of an ASCII digit string under the accumulation of `snextLoop`. -/
def valAcc (ds : Bytes) (a : Nat) : Nat := ds.foldl (fun n c => n * 10 + (c - 48)) a

theorem digitp_iff {c : Nat} : digitp c = true ↔ 48 ≤ c ∧ c ≤ 57 := by
  simp [digitp]

theorem snextLoop_digit {c : Nat} (r : Bytes) (a : Nat) (h : digitp c = true) :
    snextLoop (c :: r) a = snextLoop r (a * 10 + (c - 48)) := by
  have hc := digitp_iff.mp h
  simp only [snextLoop]
  rw [if_pos ⟨by omega, by omega, h⟩]

theorem snextLoop_stop {c : Nat} (r : Bytes) (a : Nat) (h : digitp c = false) :
    snextLoop (c :: r) a = (a, c :: r) := by
  simp only [snextLoop]
  rw [if_neg (by simp [h])]

theorem snextLoop_digits {ds : Bytes} (t : Bytes) (a : Nat)
    (h : ∀ x ∈ ds, digitp x = true) :
    snextLoop (ds ++ t) a = snextLoop t (valAcc ds a) := by
  induction ds generalizing a with
  | nil => simp [valAcc]
  | cons c ds ih =>
    rw [List.cons_append, snextLoop_digit _ _ (h c (List.mem_cons_self c ds))]
    rw [ih _ fun x hx => h x (List.mem_cons_of_mem _ hx)]
    rfl

theorem snextLoop_decomp : ∀ (s : Bytes) (a n : Nat) (t : Bytes),
    snextLoop s a = (n, t) →
    ∃ ds, s = ds ++ t ∧ (∀ x ∈ ds, digitp x = true) ∧ valAcc ds a = n := by
  intro s
  induction s with
  | nil =>
    intro a n t h
    simp only [snextLoop] at h
    injection h with h1 h2
    exact ⟨[], by simp [← h2], by simp, by simpa [valAcc] using h1⟩
  | cons c r ih =>
    intro a n t h
    by_cases hd : digitp c = true
    · rw [snextLoop_digit _ _ hd] at h
      obtain ⟨ds, hs, hds, hv⟩ := ih _ _ _ h
      exact ⟨c :: ds, by simp [hs], by
        intro x hx
        rcases List.mem_cons.mp hx with hx | hx
        · exact hx ▸ hd
        · exact hds x hx, by simpa [valAcc] using hv⟩
    · rw [snextLoop_stop _ _ (by simpa using hd)] at h
      injection h with h1 h2
      exact ⟨[], by simp [← h2], by simp, by simpa [valAcc] using h1⟩

/-- Consumed chunk of a successful `snext`: digit string plus colon. -/
def SnextC (h : Bytes) (n : Nat) : Prop :=
  ∃ ds, h = ds ++ [58] ∧ (∀ x ∈ ds, digitp x = true) ∧ valAcc ds 0 = n ∧ n ≠ 0

theorem SnextC.run {h : Bytes} {n : Nat} (hc : SnextC h n) (r : Bytes) :
    snext (h ++ r) = some (n, r) := by
  obtain ⟨ds, rfl, hds, hv, hn⟩ := hc
  have e1 : (ds ++ [58]) ++ r = ds ++ (58 :: r) := by simp
  simp only [snext, e1]
  rw [snextLoop_digits _ 0 hds, snextLoop_stop _ _ (by decide), hv]
  simp [hn]

theorem SnextC.head {h : Bytes} {n : Nat} (hc : SnextC h n) :
    ∃ c t, h = c :: t ∧ digitp c = true := by
  obtain ⟨ds, rfl, hds, hv, hn⟩ := hc
  cases ds with
  | nil => simp [valAcc] at hv; omega
  | cons c t => exact ⟨c, t ++ [58], by simp, hds c (List.mem_cons_self c t)⟩

theorem snext_decomp {s : Bytes} {n : Nat} {r : Bytes} (h : snext s = some (n, r)) :
    ∃ hd, s = hd ++ r ∧ SnextC hd n := by
  simp only [snext] at h
  rcases he : snextLoop s 0 with ⟨m, t⟩
  rw [he] at h
  simp only at h
  by_cases hm : m = 0
  · simp [hm] at h
  · rw [if_neg hm] at h
    match t, he, h with
    | 58 :: rest, he, h =>
      obtain ⟨hn, hr⟩ : m = n ∧ rest = r := by
        simpa using h
      obtain ⟨ds, hs, hds, hv⟩ := snextLoop_decomp _ _ _ _ he
      exact ⟨ds ++ [58], by simp [hs, hr], ds, rfl, hds, by omega, by omega⟩

theorem SnextC.two_le {h : Bytes} {n : Nat} (hc : SnextC h n) : 2 ≤ h.length := by
  obtain ⟨ds, rfl, hds, hv, hn⟩ := hc
  cases ds with
  | nil => simp [valAcc] at hv; omega
  | cons c t =>
    simp only [List.length_cons, List.length_append, List.length_singleton]
    omega

theorem snext_len {s : Bytes} {n : Nat} {r : Bytes} (h : snext s = some (n, r)) :
    r.length + 2 ≤ s.length := by
  obtain ⟨hd, rfl, hc⟩ := snext_decomp h
  have := hc.two_le
  simp only [List.length_append]
  omega

/-- Consumed chunk of an atom: header plus payload of the announced length. -/
def AtomC (c : Bytes) (n : Nat) (p : Bytes) : Prop :=
  ∃ h, c = h ++ p ∧ SnextC h n ∧ p.length = n

theorem AtomC.snextRun {c : Bytes} {n : Nat} {p : Bytes} (hc : AtomC c n p) (r : Bytes) :
    snext (c ++ r) = some (n, p ++ r) := by
  obtain ⟨h, rfl, hs, _⟩ := hc
  rw [List.append_assoc]
  exact hs.run (p ++ r)

/-! ### Fuel irrelevance and composition for the skipper -/

theorem sskipF_nil (st : Bool) (f d : Nat) : sskipF st f [] (d + 1) = none := by
  cases f <;> rfl

theorem sskipF_depth0 (st : Bool) (f : Nat) (s : Bytes) : sskipF st f s 0 = some s := by
  cases f <;> cases s <;> rfl

theorem sskipF_leading_zero (f : Nat) (rest : Bytes) (d : Nat) :
    sskipF true f (48 :: rest) (d + 1) = none := by
  cases f with
  | zero => rfl
  | succ f => simp [sskipF]

theorem sskipF_fuelIrrel (st : Bool) :
    ∀ (f : Nat) (s : Bytes) (f' d : Nat), s.length ≤ f → s.length ≤ f' →
      sskipF st f s d = sskipF st f' s d := by
  intro f
  induction f with
  | zero =>
    intro s f' d h1 _
    have : s = [] := List.length_eq_zero.mp (by omega)
    subst this
    cases d with
    | zero => cases f' <;> rfl
    | succ d => rw [sskipF_nil]; cases f' <;> rfl
  | succ f ih =>
    intro s f' d h1 h2
    cases d with
    | zero => cases s <;> cases f' <;> rfl
    | succ d =>
      cases s with
      | nil => rw [sskipF_nil, sskipF_nil]
      | cons c rest =>
        have hf' : ∃ g, f' = g + 1 := ⟨f' - 1, by simp at h2; omega⟩
        obtain ⟨g, rfl⟩ := hf'
        simp only [sskipF]
        have hlen : rest.length ≤ f ∧ rest.length ≤ g := by simp at h1 h2; omega
        by_cases h40 : c = 40
        · simp only [if_pos h40]
          exact ih rest g (d + 2) hlen.1 hlen.2
        · simp only [if_neg h40]
          by_cases h41 : c = 41
          · simp only [if_pos h41]
            exact ih rest g d hlen.1 hlen.2
          · simp only [if_neg h41]
            by_cases h48 : st = true ∧ c = 48
            · simp only [if_pos h48]
            · simp only [if_neg h48]
              cases hsn : snext (c :: rest) with
              | none => rfl
              | some v =>
                obtain ⟨n, r⟩ := v
                have hl := snext_len hsn
                have hdl : (r.drop n).length ≤ r.length := by
                  rw [List.length_drop]; omega
                simp only
                exact ih (r.drop n) g (d + 1)
                  (by simp at h1 hl; omega) (by simp at h2 hl; omega)

/-- Chunk-consumption relation for the skipper: consuming `c` takes the
scan from depth `d` to depth `d'` regardless of what follows. -/
def SkipsTo (st : Bool) (c : Bytes) (d d' : Nat) : Prop :=
  ∀ r f, c.length + r.length ≤ f → sskipF st f (c ++ r) d = sskipF st f r d'

theorem SkipsTo.nil (st : Bool) (d : Nat) : SkipsTo st [] d d := by
  intro r f _; rfl

theorem SkipsTo.comp {st : Bool} {c₁ c₂ : Bytes} {d₁ d₂ d₃ : Nat}
    (h1 : SkipsTo st c₁ d₁ d₂) (h2 : SkipsTo st c₂ d₂ d₃) :
    SkipsTo st (c₁ ++ c₂) d₁ d₃ := by
  intro r f hf
  rw [List.append_assoc]
  rw [h1 (c₂ ++ r) f (by simp at hf ⊢; omega)]
  exact h2 r f (by simp at hf ⊢; omega)

theorem skipsTo_open (st : Bool) (d : Nat) : SkipsTo st [40] (d + 1) (d + 2) := by
  intro r f hf
  have : ∃ g, f = g + 1 := ⟨f - 1, by simp at hf; omega⟩
  obtain ⟨g, rfl⟩ := this
  simp only [List.cons_append, List.nil_append, sskipF, if_pos rfl]
  exact sskipF_fuelIrrel st g r (g + 1) (d + 2) (by simp at hf; omega) (by simp at hf; omega)

theorem skipsTo_close (st : Bool) (d : Nat) : SkipsTo st [41] (d + 1) d := by
  intro r f hf
  have : ∃ g, f = g + 1 := ⟨f - 1, by simp at hf; omega⟩
  obtain ⟨g, rfl⟩ := this
  have h1 : sskipF st (g + 1) ([41] ++ r) (d + 1) = sskipF st g r d := by
    simp [sskipF]
  rw [h1]
  exact sskipF_fuelIrrel st g r (g + 1) d (by simp at hf; omega) (by simp at hf; omega)

theorem skipsTo_atom {st : Bool} {h p : Bytes} {n : Nat}
    (hs : SnextC h n) (hp : p.length = n) (hz : st = true → h.head? ≠ some 48)
    (d : Nat) : SkipsTo st (h ++ p) (d + 1) (d + 1) := by
  intro r f hf
  obtain ⟨c, t, hh, hd⟩ := hs.head
  have hc := digitp_iff.mp hd
  have hf1 : h.length + p.length + r.length ≤ f := by
    have := List.length_append h p
    omega
  have hhl : 1 ≤ h.length := by rw [hh]; simp
  have : ∃ g, f = g + 1 := ⟨f - 1, by omega⟩
  obtain ⟨g, rfl⟩ := this
  have hshape : (h ++ p) ++ r = c :: (t ++ p ++ r) := by simp [hh]
  rw [hshape]
  simp only [sskipF]
  rw [if_neg (by omega), if_neg (by omega)]
  have h48 : c ≠ 48 ∨ st = false := by
    by_cases hst : st = true
    · left; intro hc48; exact hz hst (by simp [hh, hc48])
    · right; simpa using hst
  rw [if_neg (by rcases h48 with h | h <;> simp [h])]
  have hrun : snext (c :: (t ++ p ++ r)) = some (n, p ++ r) := by
    have := hs.run (p ++ r)
    rw [hh] at this
    simpa using this
  rw [hrun]
  simp only
  rw [List.drop_append_of_le_length (by omega), List.drop_eq_nil_of_le (by omega),
      List.nil_append]
  exact sskipF_fuelIrrel st g r (g + 1) (d + 1) (by omega) (by omega)

theorem sskip_decomp :
    ∀ (f : Nat) (s : Bytes) (d : Nat) (s' : Bytes), s.length ≤ f →
      sskipF false f s d = some s' →
      ∃ c, s = c ++ s' ∧ SkipsTo false c d 0 := by
  intro f
  induction f with
  | zero =>
    intro s d s' h1 h2
    have hs : s = [] := List.length_eq_zero.mp (by omega)
    subst hs
    cases d with
    | zero =>
      have hs' : s' = [] := by
        have he : some ([] : Bytes) = some s' := by simpa [sskipF] using h2
        simpa using he.symm
      subst hs'
      exact ⟨[], rfl, SkipsTo.nil false 0⟩
    | succ d => rw [sskipF_nil] at h2; exact absurd h2 (by simp)
  | succ f ih =>
    intro s d s' h1 h2
    cases d with
    | zero =>
      have : s' = s := by simpa [sskipF] using h2.symm
      subst this
      exact ⟨[], rfl, SkipsTo.nil false 0⟩
    | succ d =>
      cases s with
      | nil => rw [sskipF_nil] at h2; exact absurd h2 (by simp)
      | cons c rest =>
        simp only [sskipF] at h2
        by_cases h40 : c = 40
        · rw [if_pos h40] at h2
          obtain ⟨c₂, hr, hsk⟩ := ih rest (d + 2) s' (by simp at h1; omega) h2
          exact ⟨40 :: c₂, by simp [hr, h40],
            h40 ▸ (skipsTo_open false d).comp hsk⟩
        · rw [if_neg h40] at h2
          by_cases h41 : c = 41
          · rw [if_pos h41] at h2
            obtain ⟨c₂, hr, hsk⟩ := ih rest d s' (by simp at h1; omega) h2
            exact ⟨41 :: c₂, by simp [hr, h41],
              h41 ▸ (skipsTo_close false d).comp hsk⟩
          · rw [if_neg h41, if_neg (by simp)] at h2
            cases hsn : snext (c :: rest) with
            | none => rw [hsn] at h2; exact absurd h2 (by simp)
            | some v =>
              obtain ⟨n, r⟩ := v
              rw [hsn] at h2
              simp only at h2
              have hlen := snext_len hsn
              obtain ⟨hd, hhd, hsc⟩ := snext_decomp hsn
              have hdl : (r.drop n).length ≤ r.length := by
                rw [List.length_drop]; omega
              obtain ⟨c₂, hr2, hsk⟩ := ih (r.drop n) (d + 1) s'
                (by simp at h1 hlen; omega) h2
              have hnr : n < r.length := by
                rcases Nat.lt_or_ge n r.length with h | h
                · exact h
                · rw [List.drop_eq_nil_of_le h] at h2
                  rw [sskipF_nil] at h2
                  exact absurd h2 (by simp)
              refine ⟨hd ++ r.take n ++ c₂, ?_, ?_⟩
              · rw [hhd]
                conv_lhs => rw [← List.take_append_drop n r]
                rw [hr2]
                simp
              · exact ((skipsTo_atom hsc (by simp; omega) (by simp) d)).comp hsk

theorem canonLen_append {body : Bytes} (rest : Bytes) (h : SkipsTo true body 1 0) :
    canonLen (40 :: (body ++ rest)) = body.length + 1 := by
  have he := h rest (body ++ rest).length (by simp)
  simp only [canonLen, he, sskipF_depth0]
  simp only [List.length_cons, List.length_append]
  omega

/-! ## KDF lemmas -/

theorem s2kFeedF_fuelIrrel (salt pw : Bytes) :
    ∀ (f : Nat) (count f' : Nat), count ≤ f → count ≤ f' →
      s2kFeedF salt pw f count = s2kFeedF salt pw f' count := by
  intro f
  induction f with
  | zero =>
    intro count f' h1 _
    have : count = 0 := by omega
    subst this
    cases f' <;> rfl
  | succ f ih =>
    intro count f' h1 h2
    cases count with
    | zero => cases f' <;> rfl
    | succ c =>
      have : ∃ g, f' = g + 1 := ⟨f' - 1, by omega⟩
      obtain ⟨g, rfl⟩ := this
      simp only [s2kFeedF]
      by_cases hgt : c + 1 > pw.length + 8
      · rw [if_pos hgt, if_pos hgt]
        rw [ih (c + 1 - (pw.length + 8)) g (by omega) (by omega)]
      · rw [if_neg hgt, if_neg hgt]

theorem s2kFeedF_length (salt pw : Bytes) (hsalt : salt.length = 8) :
    ∀ (f : Nat) (count : Nat), count ≤ f →
      (s2kFeedF salt pw f count).length = count := by
  intro f
  induction f with
  | zero =>
    intro count h
    have : count = 0 := by omega
    subst this
    simp [s2kFeedF]
  | succ f ih =>
    intro count h
    cases count with
    | zero => simp [s2kFeedF]
    | succ c =>
      simp only [s2kFeedF]
      by_cases hgt : c + 1 > pw.length + 8
      · rw [if_pos hgt]
        rw [List.length_append, ih (c + 1 - (pw.length + 8)) (by omega)]
        simp [List.length_take, hsalt]
        omega
      · rw [if_neg hgt]
        by_cases hlt : c + 1 < 8
        · rw [if_pos hlt]
          simp [List.length_take, hsalt]
          omega
        · rw [if_neg hlt]
          simp [List.length_take, hsalt]
          omega

theorem s2kFeed_length (salt pw : Bytes) (count : Nat) (hsalt : salt.length = 8) :
    (s2kFeed salt pw count).length = count :=
  s2kFeedF_length salt pw hsalt count count le_rfl

/-- Unfolding equation of the S2K feeding loop: it is exactly the
salt/passphrase pattern of the C `while (count > len2)` loop with its
final remainder step. -/
theorem s2kFeed_eq (salt pw : Bytes) (count : Nat) :
    s2kFeed salt pw count =
      if count > pw.length + 8 then
        (salt.take 8 ++ pw) ++ s2kFeed salt pw (count - (pw.length + 8))
      else if count < 8 then salt.take count
      else salt.take 8 ++ pw.take (count - 8) := by
  cases count with
  | zero =>
    have h0 : ¬ (0 > pw.length + 8) := by omega
    rw [if_neg h0, if_pos (by omega)]
    rfl
  | succ c =>
    show s2kFeedF salt pw (c + 1) (c + 1) = _
    simp only [s2kFeedF]
    by_cases hgt : c + 1 > pw.length + 8
    · rw [if_pos hgt, if_pos hgt]
      rw [s2kFeedF_fuelIrrel salt pw c (c + 1 - (pw.length + 8))
            (c + 1 - (pw.length + 8)) (by omega) le_rfl]
      rfl
    · rw [if_neg hgt, if_neg hgt]

/-! ## Pass-loop lemmas (`hash_passphrase` output filling) -/

theorem hashPassLoop_done (H : Bytes → Bytes) (dlen : Nat) (mat : Bytes)
    (keylen : Nat) (fuel pass used : Nat) (h : ¬ used < keylen) :
    hashPassLoop H dlen mat keylen fuel pass used = some [] := by
  cases fuel <;> simp [hashPassLoop, h]

theorem hashPassLoop_ceil (H : Bytes → Bytes) (dlen keylen : Nat) (mat : Bytes)
    (hd : 0 < dlen) :
    ∀ (fuel pass used : Nat), used < keylen →
      (keylen - used + dlen - 1) / dlen ≤ fuel →
      ∃ key, hashPassLoop H dlen mat keylen fuel pass used = some key ∧
        ((∀ m, (H m).length = dlen) → key.length = keylen - used) := by
  intro fuel
  induction fuel with
  | zero =>
    intro pass used h1 h2
    exact absurd h2 (by
      have : 0 < keylen - used := by omega
      have : 1 ≤ (keylen - used + dlen - 1) / dlen := by
        apply Nat.le_div_iff_mul_le hd |>.mpr
        omega
      omega)
  | succ fuel ih =>
    intro pass used h1 h2
    simp only [hashPassLoop, if_pos h1]
    by_cases hlast : keylen ≤ used + min dlen (keylen - used)
    · rw [hashPassLoop_done H dlen mat keylen fuel (pass + 1) _ (by omega)]
      refine ⟨_, rfl, fun hH => ?_⟩
      have : min dlen (keylen - used) = keylen - used := by omega
      simp [List.length_take, hH, this]
      omega
    · have hmin : min dlen (keylen - used) = dlen := by omega
      obtain ⟨key, hkey, hlen⟩ := ih (pass + 1) (used + min dlen (keylen - used))
        (by omega) (by
          rw [hmin]
          have heq : keylen - (used + dlen) + dlen - 1 = keylen - used - 1 := by omega
          rw [heq]
          have heq2 : keylen - used + dlen - 1 = (keylen - used - 1) + dlen := by omega
          rw [heq2, Nat.add_div_right _ hd] at h2
          omega)
      rw [hkey]
      refine ⟨_, rfl, fun hH => ?_⟩
      rw [List.length_append, hlen hH]
      simp [List.length_take, hH, hmin]
      omega

theorem hashPassLoop_short (H : Bytes → Bytes) (dlen keylen : Nat) (mat : Bytes) :
    ∀ (fuel pass used : Nat), fuel * dlen < keylen - used →
      hashPassLoop H dlen mat keylen fuel pass used = none := by
  intro fuel
  induction fuel with
  | zero =>
    intro pass used h
    simp only [hashPassLoop]
    rw [if_pos (by omega)]
  | succ fuel ih =>
    intro pass used h
    have h1 : used < keylen := by
      have : (fuel + 1) * dlen ≥ 0 := Nat.zero_le _
      omega
    simp only [hashPassLoop, if_pos h1]
    have hmin : min dlen (keylen - used) = dlen := by
      have : (fuel + 1) * dlen ≥ dlen := by
        calc dlen = 1 * dlen := (Nat.one_mul dlen).symm
        _ ≤ (fuel + 1) * dlen := Nat.mul_le_mul_right dlen (by omega)
      omega
    rw [hmin, ih (pass + 1) (used + dlen) (by
      have hexp : (fuel + 1) * dlen = fuel * dlen + dlen := by ring
      omega)]

/-- C10: for every passphrase, supported S2K mode and positive key length,
the output-filling loop of `hash_passphrase` terminates when the digest
length is positive: each pass copies `min dlen (keylen - used) > 0` bytes,
the loop finishes within exactly `⌈keylen / dlen⌉` passes (it succeeds with
that much fuel and fails with one pass less), the assembled key has length
`keylen` when the hash outputs `dlen`-byte digests, and consequently
`hash_passphrase` never reports the loop-nontermination marker. -/
theorem hash_passphrase_terminates (H : Bytes → Bytes) (dlen keylen : Nat)
    (mat pw : Bytes) (s2kmode : Nat) (salt : Bytes) (s2kcount hashalgo : Nat)
    (hd : 0 < dlen) (hk : 0 < keylen)
    (hmode : s2kmode = 0 ∨ s2kmode = 1 ∨ s2kmode = 3) (halgo : hashalgo ≠ 0) :
    (∀ used : Nat, used < keylen → 0 < min dlen (keylen - used)) ∧
    (∃ key, hashPassLoop H dlen mat keylen ((keylen + dlen - 1) / dlen) 0 0 = some key ∧
      ((∀ m, (H m).length = dlen) → key.length = keylen)) ∧
    hashPassLoop H dlen mat keylen ((keylen + dlen - 1) / dlen - 1) 0 0 = none ∧
    (∃ key, hash_passphrase H dlen pw hashalgo s2kmode (some salt) s2kcount keylen =
        .ok key ∧ ((∀ m, (H m).length = dlen) → key.length = keylen)) := by
  have hceil : (keylen + dlen - 1) / dlen ≤ keylen := by
    obtain ⟨a, rfl⟩ : ∃ a, keylen = a + 1 := ⟨keylen - 1, by omega⟩
    obtain ⟨b, rfl⟩ : ∃ b, dlen = b + 1 := ⟨dlen - 1, by omega⟩
    apply Nat.div_le_of_le_mul
    calc a + 1 + (b + 1) - 1 ≤ a * b + a + b + 1 := by omega
    _ = (b + 1) * (a + 1) := by ring
  have hceil0 : (keylen - 0 + dlen - 1) / dlen ≤ keylen := by
    rw [Nat.sub_zero]; exact hceil
  refine ⟨fun used hu => by omega, ?_, ?_, ?_⟩
  · obtain ⟨key, hkey, hlen⟩ := hashPassLoop_ceil H dlen keylen mat hd
      ((keylen + dlen - 1) / dlen) 0 0 hk (by rw [Nat.sub_zero])
    exact ⟨key, hkey, fun hH => by rw [hlen hH]; omega⟩
  · apply hashPassLoop_short
    have h1 : ((keylen + dlen - 1) / dlen) * dlen < keylen + dlen := by
      have := Nat.div_mul_le_self (keylen + dlen - 1) dlen
      have h2 : (keylen + dlen - 1) / dlen * dlen ≤ keylen + dlen - 1 := this
      omega
    have hc1 : 1 ≤ (keylen + dlen - 1) / dlen := by
      apply Nat.le_div_iff_mul_le hd |>.mpr
      omega
    have hexp : ((keylen + dlen - 1) / dlen - 1) * dlen
        = ((keylen + dlen - 1) / dlen) * dlen - dlen := by
      rw [Nat.sub_mul, Nat.one_mul]
    omega
  · obtain ⟨key, hkey, hlen⟩ := hashPassLoop_ceil H dlen keylen
      (s2kMaterial s2kmode salt pw s2kcount) hd keylen 0 0 hk hceil0
    refine ⟨key, ?_, fun hH => by rw [hlen hH]; omega⟩
    have hcond : ¬ ((s2kmode ≠ 0 ∧ s2kmode ≠ 1 ∧ s2kmode ≠ 3) ∨ hashalgo = 0 ∨ keylen = 0) := by
      rcases hmode with h | h | h <;> simp [h, halgo] <;> omega
    unfold hash_passphrase
    rw [if_neg hcond, if_neg (by simp)]
    simp only [Option.getD_some]
    rw [hkey]

/-- C8 helper: the decoded-and-clamped count of S2K mode 3. -/
def s2kClamped (pw : Bytes) (c : Nat) : Nat := max (s2kDecodeCount c) (pw.length + 8)

/-- C8: in S2K mode 3 `hash_passphrase` decodes the iteration count as
`(16 + (c & 15)) << ((c >> 4) + 6)`, raises it to `len2 = pwlen + 8` when
smaller, and the per-pass material is the salt/passphrase feeding loop
(8 salt bytes then the passphrase while `count > len2`, then the remainder
from the salt alone if below 8, else 8 salt bytes and `count - 8`
passphrase bytes), totalling exactly `max (decoded count) len2` bytes. -/
theorem hash_passphrase_s2k3_material (salt pw : Bytes) (c : Nat)
    (hsalt : salt.length = 8) :
    s2kDecodeCount c = (16 + c % 16) <<< (c / 16 + 6) ∧
    s2kMaterial 3 salt pw c = s2kFeed salt pw (max (s2kDecodeCount c) (pw.length + 8)) ∧
    (∀ count, s2kFeed salt pw count =
      if count > pw.length + 8 then
        (salt.take 8 ++ pw) ++ s2kFeed salt pw (count - (pw.length + 8))
      else if count < 8 then salt.take count
      else salt.take 8 ++ pw.take (count - 8)) ∧
    (s2kMaterial 3 salt pw c).length = max (s2kDecodeCount c) (pw.length + 8) := by
  refine ⟨rfl, rfl, s2kFeed_eq salt pw, ?_⟩
  show (s2kFeed salt pw _).length = _
  exact s2kFeed_length salt pw _ hsalt

/-- Witness for C8 at a concrete salt, passphrase and count octet. -/
theorem hash_passphrase_s2k3_material_witness :
    (s2kMaterial 3 (List.replicate 8 0) [97] 96).length = max (s2kDecodeCount 96) 9 :=
  (hash_passphrase_s2k3_material (List.replicate 8 0) [97] 96 (by decide)).2.2.2

/-- Witness for C10 at a concrete hash (constant 20-byte digest), key
length 16 and S2K mode 3. -/
theorem hash_passphrase_terminates_witness :
    (0 : Nat) < 20 ∧ (0 : Nat) < 16 ∧
    hashPassLoop (fun _ => List.replicate 20 7) 20 [5] 16 ((16 + 20 - 1) / 20 - 1) 0 0
      = none :=
  ⟨by decide, by decide,
   (hash_passphrase_terminates (fun _ => List.replicate 20 7) 20 16 [5] [97] 3
      (List.replicate 8 0) 96 2 (by decide) (by decide) (by decide) (by decide)).2.2.1⟩

/-- C2 (code bug): the quick check of `do_decryption` is written with `&&`
(`*outbuf != '(' && outbuf[1] != '('`), so a decrypted plaintext that does
NOT begin with `((` — here `(1:x)` followed by padding — passes both the
quick check and the canonical-length check, and `do_decryption` returns the
plaintext instead of the `BadPassphrase` the spec (and the claim) require.
The ciphertext is one 16-byte block; the cipher parameter is instantiated
so that decryption yields the given plaintext. -/
theorem do_decryption_quick_check_bug :
    (¬ ([40, 49, 58, 120, 41] ++ List.replicate 11 32).take 2 = [40, 40]) ∧
    do_decryption (fun _ => List.replicate 20 7)
      (fun _ _ _ => [40, 49, 58, 120, 41] ++ List.replicate 11 32)
      (List.replicate 16 49) [97] (List.replicate 8 50) 96 (List.replicate 16 51)
      = .ok ([40, 49, 58, 120, 41] ++ List.replicate 11 32) :=
  ⟨by decide, by rfl⟩

/-! ## Decimal rendering and atom-encoding lemmas -/

theorem toDecF_digits : ∀ (f n : Nat), ∀ x ∈ toDecF f n, digitp x = true := by
  intro f
  induction f with
  | zero => intro n x hx; simp [toDecF] at hx
  | succ f ih =>
    intro n x hx
    simp only [toDecF] at hx
    by_cases h : n < 10
    · rw [if_pos h] at hx
      simp at hx
      rw [digitp_iff]
      omega
    · rw [if_neg h] at hx
      rcases List.mem_append.mp hx with hx | hx
      · exact ih _ x hx
      · simp at hx
        rw [digitp_iff]
        have := Nat.mod_lt n (show 0 < 10 by omega)
        omega

theorem toDecF_fuelIrrel : ∀ (f n f' : Nat), n < f → n < f' → toDecF f n = toDecF f' n := by
  intro f
  induction f with
  | zero => intro n f' h; omega
  | succ f ih =>
    intro n f' h1 h2
    obtain ⟨g, rfl⟩ : ∃ g, f' = g + 1 := ⟨f' - 1, by omega⟩
    simp only [toDecF]
    by_cases h : n < 10
    · rw [if_pos h, if_pos h]
    · rw [if_neg h, if_neg h, ih (n / 10) g (by omega) (by omega)]

theorem valAcc_append_one (ds : Bytes) (d a : Nat) :
    valAcc (ds ++ [d]) a = valAcc ds a * 10 + (d - 48) := by
  simp [valAcc, List.foldl_append]

theorem valAcc_toDecF : ∀ (f n : Nat) (a : Nat), n < f →
    valAcc (toDecF f n) a = a * 10 ^ (toDecF f n).length + n := by
  intro f
  induction f with
  | zero => intro n a h; omega
  | succ f ih =>
    intro n a h
    simp only [toDecF]
    by_cases hn : n < 10
    · rw [if_pos hn]
      simp only [valAcc, List.foldl_cons, List.foldl_nil, List.length_singleton, pow_one]
      omega
    · rw [if_neg hn]
      rw [valAcc_append_one, ih (n / 10) a (by omega)]
      rw [List.length_append, List.length_singleton, pow_succ, ← mul_assoc]
      have h10 : 10 * (n / 10) + n % 10 = n := Nat.div_add_mod n 10
      omega

theorem valAcc_toDec (n : Nat) : valAcc (toDec n) 0 = n := by
  have := valAcc_toDecF (n + 1) n 0 (by omega)
  simpa [toDec] using this

theorem toDec_digits (n : Nat) : ∀ x ∈ toDec n, digitp x = true :=
  toDecF_digits (n + 1) n

theorem toDecF_head_ne_zero : ∀ (f n : Nat), 0 < n → n < f →
    (toDecF f n).head? ≠ some 48 := by
  intro f
  induction f with
  | zero => intro n h1 h2; omega
  | succ f ih =>
    intro n h1 h2
    simp only [toDecF]
    by_cases hn : n < 10
    · rw [if_pos hn]; simp; omega
    · rw [if_neg hn]
      have hrec := ih (n / 10) (by omega) (by omega)
      have hne : toDecF f (n / 10) ≠ [] := by
        intro hnil
        have := valAcc_toDecF f (n / 10) 0 (by omega)
        rw [hnil] at this
        simp [valAcc] at this
        omega
      obtain ⟨c, t, hct⟩ : ∃ c t, toDecF f (n / 10) = c :: t := by
        cases he : toDecF f (n / 10) with
        | nil => exact absurd he hne
        | cons c t => exact ⟨c, t, rfl⟩
      rw [hct]
      rw [hct] at hrec
      simpa using hrec

/-- Header chunk of the canonical atom encoding. -/
theorem atomE_snextC (p : Bytes) (hp : p ≠ []) :
    SnextC (toDec p.length ++ [58]) p.length := by
  refine ⟨toDec p.length, rfl, toDec_digits _, valAcc_toDec _, ?_⟩
  simpa using hp

theorem atomE_snext (p : Bytes) (hp : p ≠ []) (r : Bytes) :
    snext (atomE p ++ r) = some (p.length, p ++ r) := by
  have h := (atomE_snextC p hp).run (p ++ r)
  simpa [atomE] using h

theorem smatch_tok (tok r : Bytes) : smatch (tok ++ r) tok.length tok = some r := by
  simp [smatch, List.take_left, List.drop_left]

/-! ## `strtoul` model lemmas -/

theorem digitsVal_digits (ds : Bytes) (t : Bytes) (a : Nat)
    (h : ∀ x ∈ ds, digitp x = true) :
    digitsVal (ds ++ t) a = digitsVal t (valAcc ds a) := by
  induction ds generalizing a with
  | nil => simp [valAcc]
  | cons c ds ih =>
    rw [List.cons_append]
    rw [show digitsVal (c :: (ds ++ t)) a = digitsVal (ds ++ t) (a * 10 + (c - 48)) from by
      simp [digitsVal, h c (List.mem_cons_self c ds)]]
    rw [ih _ fun x hx => h x (List.mem_cons_of_mem _ hx)]
    rfl

theorem digitsVal_stop (c : Nat) (t : Bytes) (a : Nat) (h : digitp c = false) :
    digitsVal (c :: t) a = a := by
  simp [digitsVal, h]

/-! ## List access helpers -/

theorem byteAt_append_len (l : Bytes) (c : Nat) (r : Bytes) :
    byteAt (l ++ c :: r) l.length = c := by
  induction l with
  | nil => rfl
  | cons x xs ih => simpa [byteAt] using ih

theorem drop_append_len_cons (l : Bytes) (c : Nat) (r : Bytes) :
    (l ++ c :: r).drop (l.length + 1) = r := by
  induction l with
  | nil => simp
  | cons x xs _ => simp

theorem getD_append_len (l : Bytes) (c : Nat) (r : Bytes) :
    List.getD (l ++ c :: r) l.length 0 = c := byteAt_append_len l c r

/-- Protected-private-key family used to probe the validation checks of
`agent_unprotect`: an rsa wrapper whose single parameter list is the
`protected` list with the given salt, count, IV and ciphertext atoms,
i.e. the canonical bytes of
`(protected-private-key (rsa (protected MODESTR ((sha1 SALT CNT) IV) CT)))`. -/
def protFamily (salt cnt iv ct : Bytes) : Bytes :=
  [40] ++ atomE tokProtectedPrivateKey ++ [40] ++ atomE tokRsa ++
  [40] ++ atomE tokProtectedStr ++ atomE tokModestr ++
  [40, 40] ++ atomE tokSha1 ++ atomE salt ++ atomE cnt ++ [41] ++
  atomE iv ++ [41] ++ atomE ct ++ [41, 41, 41]

/-- C9: during validation of the protected list, a salt atom whose length
is not 8, a (decimal) iteration count that parses to zero, an IV atom whose
length is not 16, and a ciphertext whose length is not a positive multiple
of the 16-byte block size each make `agent_unprotect` fail with
`CorruptedProtection`.  (Zero-length atoms are not representable: `snext`
rejects an empty length, so the nonemptiness hypotheses are vacuous for
canonical buffers; a length-zero ciphertext atom in particular cannot be
written, which is why positivity reduces to the divisibility check.) -/
theorem agent_unprotect_validation_errors (H : Bytes → Bytes)
    (dec : Bytes → Bytes → Bytes → Bytes) (pw : Bytes) :
    (∀ salt cnt iv ct : Bytes, salt ≠ [] → salt.length ≠ 8 →
      agent_unprotect H dec (protFamily salt cnt iv ct) pw
        = .error .CorruptedProtection) ∧
    (∀ salt cnt iv ct : Bytes, salt.length = 8 → cnt ≠ [] →
      (∀ x ∈ cnt, digitp x = true) → valAcc cnt 0 = 0 →
      agent_unprotect H dec (protFamily salt cnt iv ct) pw
        = .error .CorruptedProtection) ∧
    (∀ salt cnt iv ct : Bytes, salt.length = 8 → cnt ≠ [] →
      (∀ x ∈ cnt, digitp x = true) → valAcc cnt 0 ≠ 0 →
      iv ≠ [] → iv.length ≠ 16 →
      agent_unprotect H dec (protFamily salt cnt iv ct) pw
        = .error .CorruptedProtection) ∧
    (∀ salt cnt iv ct : Bytes, salt.length = 8 → cnt ≠ [] →
      (∀ x ∈ cnt, digitp x = true) → valAcc cnt 0 ≠ 0 →
      iv.length = 16 → ct ≠ [] → ct.length % 16 ≠ 0 →
      agent_unprotect H dec (protFamily salt cnt iv ct) pw
        = .error .CorruptedProtection) := by
  have e1 := atomE_snext tokProtectedPrivateKey (by decide)
  have e2 := atomE_snext tokRsa (by decide)
  have e3 := atomE_snext tokProtectedStr (by decide)
  have e4 := atomE_snext tokModestr (by decide)
  have e5 := atomE_snext tokSha1 (by decide)
  refine ⟨?_, ?_, ?_, ?_⟩
  · intro salt cnt iv ct hs h8
    have e6 := atomE_snext salt hs
    simp only [protFamily, List.append_assoc, List.cons_append, List.nil_append]
    simp only [agent_unprotect, e1, e2, e3, e4, e5, e6, smatch_tok, findProtF, byteAt,
               List.getD_cons_zero, List.getD_cons_succ, List.drop_succ_cons, List.drop_zero,
               List.drop_left, List.take_left, List.append_eq,
               h8, if_true, if_false, ne_eq, not_false_iff, ite_true, ite_false, and_self]
  · intro salt cnt iv ct hs8 hcne hdig hv0
    have e6 := atomE_snext salt (by intro h; rw [h] at hs8; simp at hs8)
    have e7 := atomE_snext cnt hcne
    have hdl : ∀ X : Bytes, (salt ++ X).drop 8 = X := by
      intro X; rw [← hs8]; exact List.drop_left salt X
    have hdv : ∀ X : Bytes, digitsVal (cnt ++ 41 :: X) 0 = valAcc cnt 0 := by
      intro X; rw [digitsVal_digits _ _ _ hdig, digitsVal_stop _ _ _ (by decide)]
    simp only [protFamily, List.append_assoc, List.cons_append, List.nil_append]
    simp only [agent_unprotect, e1, e2, e3, e4, e5, e6, e7, smatch_tok, findProtF, byteAt,
               List.getD_cons_zero, List.getD_cons_succ, List.drop_succ_cons, List.drop_zero,
               List.drop_left, List.take_left, List.append_eq, hs8, hdl, hdv,
               getD_append_len, hv0,
               if_true, if_false, ne_eq, not_false_iff, ite_true, ite_false, and_self,
               not_true, reduceIte]
  · intro salt cnt iv ct hs8 hcne hdig hv0 hivne hiv16
    have e6 := atomE_snext salt (by intro h; rw [h] at hs8; simp at hs8)
    have e7 := atomE_snext cnt hcne
    have e8 := atomE_snext iv hivne
    have hdl : ∀ X : Bytes, (salt ++ X).drop 8 = X := by
      intro X; rw [← hs8]; exact List.drop_left salt X
    have hdv : ∀ X : Bytes, digitsVal (cnt ++ 41 :: X) 0 = valAcc cnt 0 := by
      intro X; rw [digitsVal_digits _ _ _ hdig, digitsVal_stop _ _ _ (by decide)]
    have hdc : ∀ X : Bytes, (cnt ++ 41 :: X).drop (cnt.length + 1) = X := fun X =>
      drop_append_len_cons cnt 41 X
    simp only [protFamily, List.append_assoc, List.cons_append, List.nil_append]
    simp only [agent_unprotect, e1, e2, e3, e4, e5, e6, e7, e8, smatch_tok, findProtF,
               byteAt,
               List.getD_cons_zero, List.getD_cons_succ, List.drop_succ_cons, List.drop_zero,
               List.drop_left, List.take_left, List.append_eq, hs8, hdl, hdv, hdc,
               getD_append_len, hv0, hiv16,
               if_true, if_false, ne_eq, not_false_iff, ite_true, ite_false, and_self,
               not_true, reduceIte]
  · intro salt cnt iv ct hs8 hcne hdig hv0 hiv16 hctne hmod
    have e6 := atomE_snext salt (by intro h; rw [h] at hs8; simp at hs8)
    have e7 := atomE_snext cnt hcne
    have e8 := atomE_snext iv (by intro h; rw [h] at hiv16; simp at hiv16)
    have e9 := atomE_snext ct hctne
    have hdl : ∀ X : Bytes, (salt ++ X).drop 8 = X := by
      intro X; rw [← hs8]; exact List.drop_left salt X
    have hdv : ∀ X : Bytes, digitsVal (cnt ++ 41 :: X) 0 = valAcc cnt 0 := by
      intro X; rw [digitsVal_digits _ _ _ hdig, digitsVal_stop _ _ _ (by decide)]
    have hdc : ∀ X : Bytes, (cnt ++ 41 :: X).drop (cnt.length + 1) = X := fun X =>
      drop_append_len_cons cnt 41 X
    have hdi : ∀ X : Bytes, (iv ++ X).drop 16 = X := by
      intro X; rw [← hiv16]; exact List.drop_left iv X
    simp only [protFamily, List.append_assoc, List.cons_append, List.nil_append]
    simp only [agent_unprotect, e1, e2, e3, e4, e5, e6, e7, e8, e9, smatch_tok, findProtF,
               byteAt,
               List.getD_cons_zero, List.getD_cons_succ, List.drop_succ_cons, List.drop_zero,
               List.drop_left, List.take_left, List.append_eq, hs8, hdl, hdv, hdc, hdi,
               getD_append_len, hv0, hiv16,
               if_true, if_false, ne_eq, not_false_iff, ite_true, ite_false, and_self,
               not_true, reduceIte, do_decryption, hmod, or_true]

/-- Witness for C9: the four validation failures at concrete inputs (a
7-byte salt; count atom `0`; a 15-byte IV; a 24-byte ciphertext). -/
theorem agent_unprotect_validation_errors_witness :
    agent_unprotect (fun _ => List.replicate 20 7) (fun _ _ _ => List.replicate 16 40)
      (protFamily (List.replicate 7 1) [57, 54] (List.replicate 16 2) (List.replicate 16 3))
      [97] = .error .CorruptedProtection ∧
    agent_unprotect (fun _ => List.replicate 20 7) (fun _ _ _ => List.replicate 16 40)
      (protFamily (List.replicate 8 1) [48] (List.replicate 16 2) (List.replicate 16 3))
      [97] = .error .CorruptedProtection ∧
    agent_unprotect (fun _ => List.replicate 20 7) (fun _ _ _ => List.replicate 16 40)
      (protFamily (List.replicate 8 1) [57, 54] (List.replicate 15 2) (List.replicate 16 3))
      [97] = .error .CorruptedProtection ∧
    agent_unprotect (fun _ => List.replicate 20 7) (fun _ _ _ => List.replicate 16 40)
      (protFamily (List.replicate 8 1) [57, 54] (List.replicate 16 2) (List.replicate 24 3))
      [97] = .error .CorruptedProtection := by
  have h := agent_unprotect_validation_errors (fun _ => List.replicate 20 7)
    (fun _ _ _ => List.replicate 16 40) [97]
  exact ⟨h.1 _ _ _ _ (by decide) (by decide),
         h.2.1 _ _ _ _ (by decide) (by decide) (by decide) (by decide),
         h.2.2.1 _ _ _ _ (by decide) (by decide) (by decide) (by decide) (by decide)
           (by decide),
         h.2.2.2 _ _ _ _ (by decide) (by decide) (by decide) (by decide) (by decide)
           (by decide) (by decide)⟩

/-! ## Parameter-pair chunks

All four walks over `(name VALUE)` sub-lists (the parameter loop of
`agent_protect`, the `while (*s == '(')` loops of `calculate_mic` and
`merge_lists`, the search loops of `agent_unprotect` and the shadow
functions) consume the same byte shape; `PairS` captures one consumed
pair. -/

/-- Consumed chunk of one `(name VALUE)` pair: open paren, name atom,
value atom, close paren. -/
def PairS (chunk name : Bytes) : Prop :=
  ∃ h₁ h₂ v, chunk = 40 :: (h₁ ++ name ++ (h₂ ++ v ++ [41])) ∧
    SnextC h₁ name.length ∧ SnextC h₂ v.length

/-- Strict variant: neither atom header begins with `0` (canonical form). -/
def PairSZ (chunk name : Bytes) : Prop :=
  ∃ h₁ h₂ v, chunk = 40 :: (h₁ ++ name ++ (h₂ ++ v ++ [41])) ∧
    SnextC h₁ name.length ∧ SnextC h₂ v.length ∧
    h₁.head? ≠ some 48 ∧ h₂.head? ≠ some 48

theorem PairSZ.pairS {c nm : Bytes} (h : PairSZ c nm) : PairS c nm := by
  obtain ⟨h₁, h₂, v, he, s1, s2, _, _⟩ := h
  exact ⟨h₁, h₂, v, he, s1, s2⟩

theorem pairS_skipsTo_aux {h₁ h₂ v nm : Bytes} (s1 : SnextC h₁ nm.length)
    (s2 : SnextC h₂ v.length) (st : Bool)
    (hz1 : st = true → h₁.head? ≠ some 48) (hz2 : st = true → h₂.head? ≠ some 48)
    (d : Nat) :
    SkipsTo st (40 :: (h₁ ++ nm ++ (h₂ ++ v ++ [41]))) (d + 1) (d + 1) := by
  have e : 40 :: (h₁ ++ nm ++ (h₂ ++ v ++ [41]))
      = [40] ++ ((h₁ ++ nm) ++ ((h₂ ++ v) ++ [41])) := by simp
  rw [e]
  exact (skipsTo_open st d).comp
    ((skipsTo_atom s1 rfl hz1 (d + 1)).comp
      ((skipsTo_atom s2 rfl hz2 (d + 1)).comp (skipsTo_close st (d + 1))))

theorem PairS.skipsTo {c nm : Bytes} (h : PairS c nm) (d : Nat) :
    SkipsTo false c (d + 1) (d + 1) := by
  obtain ⟨h₁, h₂, v, rfl, s1, s2⟩ := h
  exact pairS_skipsTo_aux s1 s2 false (by simp) (by simp) d

theorem PairSZ.skipsToZ {c nm : Bytes} (h : PairSZ c nm) (d : Nat) :
    SkipsTo true c (d + 1) (d + 1) := by
  obtain ⟨h₁, h₂, v, rfl, s1, s2, z1, z2⟩ := h
  exact pairS_skipsTo_aux s1 s2 true (fun _ => z1) (fun _ => z2) d

/-- Depth-shifted value chunks: a complete value consumed at any positive
depth leaves the depth unchanged. -/
def ItemS (c : Bytes) : Prop := ∀ d, SkipsTo true c (d + 1) (d + 1)

/-! ### Strict-scan peeling

On a buffer that the strict scan accepts, each consumed chunk can be
peeled off, certifying on the way that no atom header begins with `0`. -/

theorem strict_peel_atom {h p rest : Bytes} {n f d : Nat} {out : Bytes}
    (hs : SnextC h n) (hp : p.length = n)
    (hrun : sskipF true f ((h ++ p) ++ rest) (d + 1) = some out)
    (hf : (h ++ p).length + rest.length ≤ f) :
    h.head? ≠ some 48 ∧ sskipF true f rest (d + 1) = some out := by
  by_cases hz : h.head? = some 48
  · obtain ⟨c, t, hh, hd⟩ := hs.head
    rw [hh] at hz
    simp at hz
    rw [hh, hz] at hrun
    rw [show ((48 :: t) ++ p) ++ rest = 48 :: (t ++ p ++ rest) by simp] at hrun
    rw [sskipF_leading_zero] at hrun
    exact absurd hrun (by simp)
  · refine ⟨hz, ?_⟩
    rw [← skipsTo_atom hs hp (fun _ => hz) d rest f hf]
    exact hrun

theorem strict_peel_open {rest : Bytes} {f d : Nat} {out : Bytes}
    (hrun : sskipF true f (40 :: rest) (d + 1) = some out)
    (hf : 1 + rest.length ≤ f) :
    sskipF true f rest (d + 2) = some out := by
  rw [show (40 :: rest : Bytes) = [40] ++ rest by simp] at hrun
  rw [← skipsTo_open true d rest f (by simpa using hf)]
  exact hrun

theorem strict_peel_close {rest : Bytes} {f d : Nat} {out : Bytes}
    (hrun : sskipF true f (41 :: rest) (d + 1) = some out)
    (hf : 1 + rest.length ≤ f) :
    sskipF true f rest d = some out := by
  rw [show (41 :: rest : Bytes) = [41] ++ rest by simp] at hrun
  rw [← skipsTo_close true d rest f (by simpa using hf)]
  exact hrun

theorem strict_peel_pair {c nm rest : Bytes} {f d : Nat} {out : Bytes}
    (hp : PairS c nm)
    (hrun : sskipF true f (c ++ rest) (d + 1) = some out)
    (hf : c.length + rest.length ≤ f) :
    PairSZ c nm ∧ sskipF true f rest (d + 1) = some out := by
  obtain ⟨h₁, h₂, v, rfl, s1, s2⟩ := hp
  have hshape : (40 :: (h₁ ++ nm ++ (h₂ ++ v ++ [41]))) ++ rest
      = 40 :: ((h₁ ++ nm) ++ ((h₂ ++ v) ++ ([41] ++ rest))) := by simp
  rw [hshape] at hrun
  simp only [List.length_cons, List.length_append] at hf
  have h1 := strict_peel_open hrun (by simp; omega)
  have h2 := strict_peel_atom s1 rfl h1 (by simp; omega)
  have h3 := strict_peel_atom s2 rfl h2.2 (by simp; omega)
  have h4 := strict_peel_close (by simpa using h3.2) (by omega)
  exact ⟨⟨h₁, h₂, v, rfl, s1, s2, h2.1, h3.1⟩, h4⟩

theorem smatch_ne {buf : Bytes} {n : Nat} {tok : Bytes} (h : n ≠ tok.length) :
    smatch buf n tok = none := by
  simp [smatch, h]

/-! ### The `while (*s == '(')` pair loop (`calculate_mic`, `merge_lists`) -/

theorem micPairsF_nil (f : Nat) : micPairsF f [] = some [] := by
  cases f <;> rfl

theorem micPairsF_stop {c : Nat} (rest : Bytes) (f : Nat) (h : c ≠ 40) :
    micPairsF f (c :: rest) = some (c :: rest) := by
  cases f <;> simp [micPairsF, h]

theorem micPairsF_fuelIrrel :
    ∀ (f : Nat) (s : Bytes) (f' : Nat), s.length ≤ f → s.length ≤ f' →
      micPairsF f s = micPairsF f' s := by
  intro f
  induction f with
  | zero =>
    intro s f' h1 _
    have : s = [] := List.length_eq_zero.mp (by omega)
    subst this
    rw [micPairsF_nil, micPairsF_nil]
  | succ f ih =>
    intro s f' h1 h2
    cases s with
    | nil => rw [micPairsF_nil, micPairsF_nil]
    | cons c rest =>
      by_cases hc : c = 40
      · subst hc
        obtain ⟨g, rfl⟩ : ∃ g, f' = g + 1 := ⟨f' - 1, by simp at h2; omega⟩
        simp only [micPairsF, if_pos rfl]
        cases hsn : snext rest with
        | none => rfl
        | some v1 =>
          obtain ⟨n, r⟩ := v1
          have hl1 := snext_len hsn
          simp only
          cases hsn2 : snext (r.drop n) with
          | none => rfl
          | some v2 =>
            obtain ⟨n2, r2⟩ := v2
            have hl2 := snext_len hsn2
            have hdl : (r.drop n).length ≤ r.length := by rw [List.length_drop]; omega
            simp only
            cases hdr : r2.drop n2 with
            | nil => rfl
            | cons c3 r3 =>
              have hl3 : r3.length < r2.length := by
                have := List.length_drop n2 r2
                rw [hdr] at this
                simp at this
                omega
              by_cases hc3 : c3 = 41
              · simp only [if_pos hc3]
                exact ih r3 g (by simp at h1; omega) (by simp at h2; omega)
              · simp only [if_neg hc3]
      · rw [micPairsF_stop rest (f + 1) hc, micPairsF_stop rest f' hc]

theorem micPairsF_pair {c nm : Bytes} (hp : PairS c nm) :
    ∀ (r : Bytes) (f : Nat), c.length + r.length ≤ f →
      micPairsF f (c ++ r) = micPairsF f r := by
  obtain ⟨h₁, h₂, v, rfl, s1, s2⟩ := hp
  intro r f hf
  simp only [List.length_cons, List.length_append, List.length_singleton] at hf
  obtain ⟨g, rfl⟩ : ∃ g, f = g + 1 := ⟨f - 1, by omega⟩
  rw [show (40 :: (h₁ ++ nm ++ (h₂ ++ v ++ [41]))) ++ r
      = 40 :: (h₁ ++ (nm ++ (h₂ ++ v ++ 41 :: r))) by simp]
  simp only [micPairsF, if_pos rfl]
  rw [s1.run (nm ++ (h₂ ++ v ++ 41 :: r))]
  simp only
  rw [List.drop_append_of_le_length (by simp), List.drop_eq_nil_of_le (by simp),
      List.nil_append]
  rw [show (h₂ ++ v ++ 41 :: r : Bytes) = h₂ ++ (v ++ 41 :: r) by simp]
  rw [s2.run (v ++ 41 :: r)]
  simp only
  rw [List.drop_append_of_le_length (by simp), List.drop_eq_nil_of_le (by simp),
      List.nil_append]
  simp only [if_pos rfl]
  exact micPairsF_fuelIrrel g r (g + 1) (by omega) (by omega)

/-! ### The `protected`-search loop of `agent_unprotect` -/

theorem findProtF_pair {c nm : Bytes} (hp : PairS c nm) (hne : nm.length ≠ 9) :
    ∀ (r : Bytes) (f pos : Nat),
      findProtF (f + 1) (c ++ r) pos = findProtF f r (pos + c.length) := by
  obtain ⟨h₁, h₂, v, rfl, s1, s2⟩ := hp
  intro r f pos
  rw [show (40 :: (h₁ ++ nm ++ (h₂ ++ v ++ [41]))) ++ r
      = 40 :: (h₁ ++ (nm ++ (h₂ ++ v ++ 41 :: r))) by simp]
  simp only [findProtF]
  rw [s1.run (nm ++ (h₂ ++ v ++ 41 :: r))]
  simp only
  rw [smatch_ne (by simpa [tokProtectedStr] using hne)]
  simp only
  rw [List.drop_append_of_le_length (by simp), List.drop_eq_nil_of_le (by simp),
      List.nil_append]
  have hskip : sskip (h₂ ++ v ++ 41 :: r) 1 = some r := by
    have hb : (h₂ ++ v ++ 41 :: r : Bytes) = ((h₂ ++ v) ++ [41]) ++ r := by simp
    have hsk : SkipsTo false ((h₂ ++ v) ++ [41]) 1 0 :=
      (skipsTo_atom s2 rfl (by simp) 0).comp (skipsTo_close false 0)
    unfold sskip
    rw [hb]
    exact (hsk r _ (by simp; omega)).trans (sskipF_depth0 false _ r)
  rw [hskip]
  simp only
  congr 1
  simp
  omega

theorem findProtF_found {h rest : Bytes} (hs : SnextC h 9) (f pos : Nat) :
    findProtF f (40 :: (h ++ (tokProtectedStr ++ rest))) pos = .ok (pos, rest) := by
  simp only [findProtF]
  rw [hs.run (tokProtectedStr ++ rest)]
  simp only
  rw [show (9 : Nat) = tokProtectedStr.length by decide, smatch_tok]


/-- One iteration of the protection-table parameter loop: a successful run on
`c :: parms` consumes one `(c VALUE)` pair chunk from the input and recurses
with the position advanced by the chunk length, marking `prot_begin` /
`prot_end` at the designated indices. -/
theorem protParm_step {c : Nat} {parms : List Nat} {i pf pt : Nat} {s : Bytes}
    {pos : Nat} {marks : Option Nat × Option Nat}
    {out : Option Nat × Option Nat × Nat × Bytes}
    (h : protParmLoop (c :: parms) i pf pt s pos marks = .ok out) :
    ∃ chunk s₄ pos3, s = chunk ++ s₄ ∧ PairS chunk [c] ∧
      pos3 + 1 = pos + chunk.length ∧
      protParmLoop parms (i + 1) pf pt s₄ (pos3 + 1)
        ((if i = pf then some pos else marks.1),
         (if i = pt then some pos3 else marks.2)) = .ok out := by
  match s with
  | [] => simp [protParmLoop] at h
  | c0 :: s1 =>
    simp only [protParmLoop] at h
    by_cases hc0 : c0 = 40
    case neg => rw [if_neg hc0] at h; cases h
    rw [if_pos hc0] at h
    subst hc0
    rcases hsn : snext s1 with _ | ⟨n, s2⟩
    · rw [hsn] at h; exact absurd h (by simp)
    rw [hsn] at h
    simp only at h
    by_cases hcond : n = 1 ∧ byteAt s2 0 = c
    case neg => rw [if_neg hcond] at h; cases h
    rw [if_pos hcond] at h
    obtain ⟨hn1, hbc⟩ := hcond
    rcases hsn2 : snext (s2.drop 1) with _ | ⟨n2, s3⟩
    · rw [hsn2] at h; exact absurd h (by simp)
    rw [hsn2] at h
    simp only at h
    rcases hdr : s3.drop n2 with _ | ⟨c4, s4⟩
    · rw [hdr] at h; exact absurd h (by simp)
    rw [hdr] at h
    simp only at h
    by_cases hc4 : c4 = 41
    case neg => rw [if_neg hc4] at h; cases h
    rw [if_pos hc4] at h
    subst hc4
    obtain ⟨h₁, hs1e, hsc1⟩ := snext_decomp hsn
    have hs2ne : s2 ≠ [] := by
      intro he
      rw [he] at hsn2
      have hlie : (none : Option (Nat × Bytes)) = some (n2, s3) := hsn2
      cases hlie
    obtain ⟨c1, s2t, rfl⟩ : ∃ a t, s2 = a :: t := by
      cases s2 with
      | nil => exact absurd rfl hs2ne
      | cons a t => exact ⟨a, t, rfl⟩
    have hc1 : c1 = c := hbc
    subst hc1
    subst hs1e
    obtain ⟨h₂, hs2e, hsc2⟩ := snext_decomp hsn2
    have hs2e' : s2t = h₂ ++ s3 := by simpa using hs2e
    subst hs2e'
    have hn2lt : n2 < s3.length := by
      by_contra hle
      push_neg at hle
      rw [List.drop_eq_nil_of_le hle] at hdr
      cases hdr
    set p2 := s3.take n2 with hp2
    have hp2len : p2.length = n2 := by
      rw [hp2, List.length_take]; omega
    have hs3e : s3 = p2 ++ (41 :: s4) := by
      conv_lhs => rw [← List.take_append_drop n2 s3]
      rw [hdr, hp2]
    refine ⟨40 :: (h₁ ++ [c1] ++ (h₂ ++ p2 ++ [41])), s4, _, ?_, ?_, ?_, h⟩
    · conv_lhs => rw [hs3e]
      simp
    · exact ⟨h₁, h₂, p2, rfl, by simpa [hn1] using hsc1, by rw [hp2len]; exact hsc2⟩
    · have hl3 : s3.length = n2 + 1 + s4.length := by
        rw [hs3e]; simp; omega
      simp only [List.length_cons, List.length_append, List.length_nil]
      omega

/-- A successful `smatch` pins the length argument to the token length and
splits the buffer as token ++ rest. -/
theorem smatch_decomp {buf : Bytes} {n : Nat} {tok r : Bytes}
    (h : smatch buf n tok = some r) : n = tok.length ∧ buf = tok ++ r := by
  simp only [smatch] at h
  by_cases hc : n = tok.length ∧ buf.take tok.length = tok
  · rw [if_pos hc] at h
    obtain ⟨h1, h2⟩ := hc
    refine ⟨h1, ?_⟩
    have hts := List.take_append_drop tok.length buf
    rw [h2] at hts
    injection h with h3
    rw [← h3, hts]
  · rw [if_neg hc] at h; cases h

/-- Shape a key must have to pass `protectParse`: an outer
`(h₀ private-key ( h₁ rsa (n _)(e _)(d _)(p _)(q _)(u _) ) ...)` with the
recorded offsets determined by the chunk lengths. -/
theorem protectParse_shape {k : Bytes} {pp : PParse} (h : protectParse k = .ok pp) :
    ∃ (h₀ h₁ c₀ c₁ c₂ c₃ c₄ c₅ cm aft : Bytes),
      k = 40 :: (h₀ ++ (tokPrivateKey ++ (40 :: (h₁ ++ (tokRsa ++
            (c₀ ++ (c₁ ++ (c₂ ++ (c₃ ++ (c₄ ++ (c₅ ++ (41 :: (cm ++ aft))))))))))))) ∧
      SnextC h₀ 11 ∧ SnextC h₁ 3 ∧
      PairS c₀ [110] ∧ PairS c₁ [101] ∧ PairS c₂ [100] ∧
      PairS c₃ [112] ∧ PairS c₄ [113] ∧ PairS c₅ [117] ∧
      SkipsTo false cm 1 0 ∧
      pp.hashBegin = 1 + h₀.length + 11 ∧
      pp.protBegin = pp.hashBegin + 1 + h₁.length + 3 + c₀.length + c₁.length ∧
      pp.protEnd + 1 = pp.protBegin + c₂.length + c₃.length + c₄.length + c₅.length ∧
      pp.hashEnd = pp.protEnd + 1 ∧
      pp.realEnd = pp.hashEnd + cm.length := by
  cases k with
  | nil => simp [protectParse] at h
  | cons ck s0 =>
    simp only [protectParse] at h
    by_cases hck : ck = 40
    case neg => rw [if_pos hck] at h; cases h
    rw [if_neg (not_not_intro hck)] at h
    subst hck
    rcases hsn0 : snext s0 with _ | ⟨n, s1⟩
    · rw [hsn0] at h; exact absurd h (by simp)
    rw [hsn0] at h
    simp only at h
    rcases hsm0 : smatch s1 n tokPrivateKey with _ | s2
    · rw [hsm0] at h; exact absurd h (by simp)
    rw [hsm0] at h
    simp only at h
    cases s2 with
    | nil => exact absurd h (by simp)
    | cons c2 s3 =>
    simp only at h
    by_cases hc2 : c2 = 40
    case neg => rw [if_pos hc2] at h; cases h
    rw [if_neg (not_not_intro hc2)] at h
    subst hc2
    rcases hsn1 : snext s3 with _ | ⟨n2, s4⟩
    · rw [hsn1] at h; exact absurd h (by simp)
    rw [hsn1] at h
    simp only at h
    rcases hsm1 : smatch s4 n2 tokRsa with _ | s5
    · rw [hsm1] at h; exact absurd h (by simp)
    rw [hsm1] at h
    simp only at h
    rcases hloop : protParmLoop [110, 101, 100, 112, 113, 117] 0 2 5 s5
        ((40 :: s0).length - s5.length) (none, none) with e | out
    · rw [hloop] at h; exact absurd h (by simp)
    rw [hloop] at h
    simp only at h
    obtain ⟨pb, pe, pos, s6⟩ := out
    cases pb with
    | none => exact absurd h (by simp)
    | some protBegin =>
    cases pe with
    | none => exact absurd h (by simp)
    | some protEnd =>
    cases s6 with
    | nil => exact absurd h (by simp)
    | cons c6 s7 =>
    simp only at h
    by_cases hc6 : c6 = 41
    case neg => rw [if_neg hc6] at h; cases h
    rw [if_pos hc6] at h
    subst hc6
    rcases hsk : sskip s7 1 with _ | s8
    · rw [hsk] at h; exact absurd h (by simp)
    rw [hsk] at h
    simp only at h
    injection h with hpp
    subst hpp
    obtain ⟨c0L, t0, q0, he0, hpr0, hq0, hl0⟩ := protParm_step hloop
    norm_num at hl0
    obtain ⟨c1L, t1, q1, he1, hpr1, hq1, hl1⟩ := protParm_step hl0
    norm_num at hl1
    obtain ⟨c2L, t2, q2, he2, hpr2, hq2, hl2⟩ := protParm_step hl1
    norm_num at hl2
    obtain ⟨c3L, t3, q3, he3, hpr3, hq3, hl3⟩ := protParm_step hl2
    norm_num at hl3
    obtain ⟨c4L, t4, q4, he4, hpr4, hq4, hl4⟩ := protParm_step hl3
    norm_num at hl4
    obtain ⟨c5L, t5, q5, he5, hpr5, hq5, hl5⟩ := protParm_step hl4
    norm_num at hl5
    simp only [protParmLoop, Except.ok.injEq, Prod.mk.injEq, Option.some.injEq] at hl5
    obtain ⟨hPB, hPE, hPOS, hS6⟩ := hl5
    obtain ⟨hn11, hs1e⟩ := smatch_decomp hsm0
    obtain ⟨hn3, hs4e⟩ := smatch_decomp hsm1
    obtain ⟨h₀, hs0e, hsc0⟩ := snext_decomp hsn0
    obtain ⟨h₁, hs3e, hsc1⟩ := snext_decomp hsn1
    obtain ⟨cm, hs7e, hskT⟩ := sskip_decomp s7.length s7 1 s8 le_rfl hsk
    have hsc0' : SnextC h₀ 11 := by
      rw [hn11] at hsc0; exact hsc0
    have hsc1' : SnextC h₁ 3 := by
      rw [hn3] at hsc1; exact hsc1
    subst hS6
    subst hs7e
    subst he5
    subst he4
    subst he3
    subst he2
    subst he1
    subst he0
    subst hs4e
    subst hs3e
    subst hs1e
    subst hs0e
    refine ⟨h₀, h₁, c0L, c1L, c2L, c3L, c4L, c5L, cm, s8, ?_, hsc0', hsc1',
      hpr0, hpr1, hpr2, hpr3, hpr4, hpr5, hskT, ?_, ?_, ?_, ?_, ?_⟩
    · simp
    all_goals
      dsimp only
      simp only [List.length_cons, List.length_append, List.length_nil] at hq0 hq1 hq2 hq3 hq4 hq5 ⊢
      have ht1 : tokPrivateKey.length = 11 := rfl
      have ht2 : tokRsa.length = 3 := rfl
      omega

/-- C4: for every private-key buffer accepted by `agent_protect` the returned
buffer is exactly the three spans `"(21:protected-" ++ key[4..prot_begin) ++
protected-list ++ key(prot_end..real_end]`, where the protected list is the
scaffold `"(9:protected25:openpgp-s2k3-sha1-aes-cbc((4:sha18:" SALT "2:96)16:"
IV ")" LEN ":" CIPHERTEXT ")"` with an 8-byte salt, a 16-byte IV and a
ciphertext of exactly the padded length, and the reported result length
`10 + prot_begin + protectedlen + (real_end - prot_end)` equals the number of
bytes actually produced. -/
theorem agent_protect_output_layout
    {H : Bytes → Bytes} {enc : Bytes → Bytes → Bytes → Bytes}
    {rnd k pw res : Bytes} {rlen : Nat}
    (hH : ∀ m, (H m).length = 20)
    (hrnd : rnd.length = 40)
    (hencl : ∀ ky iv m, (enc ky iv m).length = m.length)
    (h : agent_protect H enc rnd k pw = .ok (res, rlen)) :
    ∃ pp ky,
      protectParse k = .ok pp ∧
      4 ≤ pp.protBegin ∧ pp.protBegin ≤ pp.protEnd + 1 ∧
      pp.protEnd < pp.realEnd ∧ pp.realEnd < k.length ∧
      (let protRegion := (k.drop pp.protBegin).take (pp.protEnd + 1 - pp.protBegin)
       let enclen := (2 + protRegion.length + 2 + 6 + 6 + 23 + 2 + 16) / 16 * 16
       let iv := rnd.take 16
       let salt := (rnd.drop (2 * 16)).take 8
       let mic := H ((k.drop pp.hashBegin).take (pp.hashEnd + 1 - pp.hashBegin))
       let plain := 40 :: 40 :: protRegion ++ litHashPart ++ mic ++ [41, 41] ++
                    (rnd.drop 16).take 16
       let ct := enc ky iv (plain.take enclen)
       let plist := litProtScaffold1 ++ salt ++ litProtScaffold2 ++ iv ++ [41] ++
                    toDec enclen ++ 58 :: ct ++ [41]
       hash_passphrase H 20 pw 2 3 (some salt) 96 16 = .ok ky ∧
       res = litProtHead ++ (k.drop 4).take (pp.protBegin - 4) ++ plist ++
             (k.drop (pp.protEnd + 1)).take (pp.realEnd - pp.protEnd) ∧
       rlen = res.length ∧
       salt.length = 8 ∧ iv.length = 16 ∧ ct.length = enclen) := by
  rcases hparse : protectParse k with e | pp
  · rw [agent_protect, hparse] at h; exact absurd h (by simp)
  rw [agent_protect, hparse] at h
  simp only at h
  rcases hdo : do_encryption H enc
      ((k.drop pp.protBegin).take (pp.protEnd + 1 - pp.protBegin)) pw
      (H ((k.drop pp.hashBegin).take (pp.hashEnd + 1 - pp.hashBegin))) rnd with e | plist
  · rw [hdo] at h; exact absurd h (by simp)
  rw [hdo] at h
  simp only [Except.ok.injEq, Prod.mk.injEq] at h
  obtain ⟨hres, hrlen⟩ := h
  rw [do_encryption] at hdo
  rcases hhp : hash_passphrase H 20 pw 2 3 (some ((rnd.drop (2 * 16)).take 8)) 96 16
      with e | ky
  · rw [hhp] at hdo; exact absurd hdo (by simp)
  rw [hhp] at hdo
  simp only [Except.ok.injEq] at hdo
  obtain ⟨h₀, h₁, c₀, c₁, c₂, c₃, c₄, c₅, cm, aft, hk, _, _, _, _, _, _, _, _, _,
    hOB, hOP, hOE, hOH, hOR⟩ := protectParse_shape hparse
  have hkl : k.length = 1 + h₀.length + 11 + 1 + h₁.length + 3 + c₀.length +
      c₁.length + c₂.length + c₃.length + c₄.length + c₅.length + 1 +
      cm.length + aft.length := by
    rw [hk]
    simp only [List.length_cons, List.length_append]
    have ht1 : tokPrivateKey.length = 11 := rfl
    have ht2 : tokRsa.length = 3 := rfl
    omega
  have hb1 : 4 ≤ pp.protBegin := by omega
  have hb2 : pp.protBegin ≤ pp.protEnd + 1 := by omega
  have hb3 : pp.protEnd < pp.realEnd := by omega
  have hb4 : pp.realEnd < k.length := by omega
  refine ⟨pp, ky, rfl, hb1, hb2, hb3, hb4, hhp, ?_, ?_, ?_, ?_, ?_⟩
  · rw [← hres, ← hdo]
  · have ht1 : ((k.drop 4).take (pp.protBegin - 4)).length = pp.protBegin - 4 := by
      simp only [List.length_take, List.length_drop]
      omega
    have ht2 : ((k.drop (pp.protEnd + 1)).take (pp.realEnd - pp.protEnd)).length =
        pp.realEnd - pp.protEnd := by
      simp only [List.length_take, List.length_drop]
      omega
    rw [← hres, ← hrlen, ← hdo]
    simp only [List.length_append, ht1, ht2]
    have hlh : litProtHead.length = 14 := rfl
    omega
  · simp only [List.length_take, List.length_drop]
    omega
  · simp only [List.length_take]
    omega
  · rw [hencl]
    have hmic : (H ((k.drop pp.hashBegin).take (pp.hashEnd + 1 - pp.hashBegin))).length
        = 20 := hH _
    simp only [List.length_take, List.length_cons, List.length_append,
      List.length_drop, hmic]
    have hlit : litHashPart.length = 17 := rfl
    have hdle := Nat.div_mul_le_self
      (2 + ((k.drop pp.protBegin).take (pp.protEnd + 1 - pp.protBegin)).length +
        2 + 6 + 6 + 23 + 2 + 16) 16
    simp only [List.length_take, List.length_drop] at hdle
    omega

/-! ### Concrete instances used by the witnesses -/

/-- A constant 20-byte "hash" (any function of this type models SHA-1's
interface; the theorems only assume the digest length). -/
def cH : Bytes → Bytes := fun _ => List.replicate 20 1

/-- The identity "cipher": same length as the input, trivially invertible. -/
def cEnc : Bytes → Bytes → Bytes → Bytes := fun _ _ m => m

/-- 40 fixed "random" bytes (16 IV, 16 padding, 8 salt). -/
def cRnd : Bytes := List.replicate 40 2

/-- A short passphrase. -/
def cPw : Bytes := [97, 98, 99]

/-- A concrete canonical RSA private key
`(11:private-key(3:rsa(1:n1:A)(1:e1:B)(1:d1:C)(1:p1:D)(1:q1:E)(1:u1:F)))`. -/
def kC : Bytes :=
  [40,49,49,58,112,114,105,118,97,116,101,45,107,101,121,
   40,51,58,114,115,97,
   40,49,58,110,49,58,65,41,
   40,49,58,101,49,58,66,41,
   40,49,58,100,49,58,67,41,
   40,49,58,112,49,58,68,41,
   40,49,58,113,49,58,69,41,
   40,49,58,117,49,58,70,41,
   41,41]

/-- The pair `agent_protect` produces on the concrete inputs. -/
def c4run : Bytes × Nat :=
  match agent_protect cH cEnc cRnd kC cPw with
  | .ok v => v
  | .error _ => ([], 0)

theorem agent_protect_output_layout_witness :
    ∃ pp ky,
      protectParse kC = .ok pp ∧
      4 ≤ pp.protBegin ∧ pp.protBegin ≤ pp.protEnd + 1 ∧
      pp.protEnd < pp.realEnd ∧ pp.realEnd < kC.length ∧
      (let protRegion := (kC.drop pp.protBegin).take (pp.protEnd + 1 - pp.protBegin)
       let enclen := (2 + protRegion.length + 2 + 6 + 6 + 23 + 2 + 16) / 16 * 16
       let iv := cRnd.take 16
       let salt := (cRnd.drop (2 * 16)).take 8
       let mic := cH ((kC.drop pp.hashBegin).take (pp.hashEnd + 1 - pp.hashBegin))
       let plain := 40 :: 40 :: protRegion ++ litHashPart ++ mic ++ [41, 41] ++
                    (cRnd.drop 16).take 16
       let ct := cEnc ky iv (plain.take enclen)
       let plist := litProtScaffold1 ++ salt ++ litProtScaffold2 ++ iv ++ [41] ++
                    toDec enclen ++ 58 :: ct ++ [41]
       hash_passphrase cH 20 cPw 2 3 (some salt) 96 16 = .ok ky ∧
       c4run.1 = litProtHead ++ (kC.drop 4).take (pp.protBegin - 4) ++ plist ++
             (kC.drop (pp.protEnd + 1)).take (pp.realEnd - pp.protEnd) ∧
       c4run.2 = c4run.1.length ∧
       salt.length = 8 ∧ iv.length = 16 ∧ ct.length = enclen) :=
  agent_protect_output_layout (fun m => rfl) rfl (fun ky iv m => rfl) (by rfl)

/-- `calculate_mic` on any buffer accepted by `protectParse` hashes exactly
the recorded `hash_begin .. hash_end` span. -/
theorem calc_mic_eval
    {H : Bytes → Bytes} {k : Bytes} {pp : PParse}
    (hparse : protectParse k = .ok pp) :
    calculate_mic H k =
      .ok (H ((k.drop pp.hashBegin).take (pp.hashEnd + 1 - pp.hashBegin))) := by
  obtain ⟨h₀, h₁, c₀, c₁, c₂, c₃, c₄, c₅, cm, aft, hk, hS0, hS1, hp0, hp1, hp2,
    hp3, hp4, hp5, hcm, hOB, hOP, hOE, hOH, hOR⟩ := protectParse_shape hparse
  subst hk
  rw [calculate_mic]
  rw [hS0.run]
  simp only
  have hsm1 : smatch (tokPrivateKey ++ (40 :: (h₁ ++ (tokRsa ++ (c₀ ++ (c₁ ++ (c₂ ++
      (c₃ ++ (c₄ ++ (c₅ ++ (41 :: (cm ++ aft)))))))))))) 11 tokPrivateKey =
      some (40 :: (h₁ ++ (tokRsa ++ (c₀ ++ (c₁ ++ (c₂ ++ (c₃ ++ (c₄ ++ (c₅ ++
      (41 :: (cm ++ aft))))))))))) := smatch_tok tokPrivateKey _
  rw [hsm1]
  simp only
  rw [hS1.run]
  simp only
  have hdr3 : (tokRsa ++ (c₀ ++ (c₁ ++ (c₂ ++ (c₃ ++ (c₄ ++ (c₅ ++ (41 :: (cm ++
      aft))))))))).drop 3 = c₀ ++ (c₁ ++ (c₂ ++ (c₃ ++ (c₄ ++ (c₅ ++ (41 :: (cm ++
      aft))))))) := List.drop_left tokRsa _
  rw [hdr3]
  rw [micPairsF_pair hp0 _ _ (by simp)]
  rw [micPairsF_pair hp1 _ _ (by simp only [List.length_append]; omega)]
  rw [micPairsF_pair hp2 _ _ (by simp only [List.length_append]; omega)]
  rw [micPairsF_pair hp3 _ _ (by simp only [List.length_append]; omega)]
  rw [micPairsF_pair hp4 _ _ (by simp only [List.length_append]; omega)]
  rw [micPairsF_pair hp5 _ _ (by simp only [List.length_append]; omega)]
  rw [micPairsF_stop _ _ (by decide)]
  simp only
  have hdrop : (40 :: (h₀ ++ (tokPrivateKey ++ (40 :: (h₁ ++ (tokRsa ++ (c₀ ++ (c₁ ++
      (c₂ ++ (c₃ ++ (c₄ ++ (c₅ ++ (41 :: (cm ++ aft)))))))))))))).drop pp.hashBegin =
      40 :: (h₁ ++ (tokRsa ++ (c₀ ++ (c₁ ++ (c₂ ++ (c₃ ++ (c₄ ++ (c₅ ++ (41 :: (cm ++
      aft)))))))))) := by
    have he : (40 :: (h₀ ++ (tokPrivateKey ++ (40 :: (h₁ ++ (tokRsa ++ (c₀ ++ (c₁ ++
        (c₂ ++ (c₃ ++ (c₄ ++ (c₅ ++ (41 :: (cm ++ aft)))))))))))))) =
        ((40 :: h₀) ++ tokPrivateKey) ++ (40 :: (h₁ ++ (tokRsa ++ (c₀ ++ (c₁ ++ (c₂ ++
        (c₃ ++ (c₄ ++ (c₅ ++ (41 :: (cm ++ aft))))))))))) := by simp
    have htl : tokPrivateKey.length = 11 := rfl
    have hl : pp.hashBegin = ((40 :: h₀) ++ tokPrivateKey).length := by
      simp only [List.length_append, List.length_cons, htl]
      omega
    rw [he, hl, List.drop_left]
  have hcount : pp.hashEnd + 1 - pp.hashBegin =
      (40 :: (h₁ ++ (tokRsa ++ (c₀ ++ (c₁ ++ (c₂ ++ (c₃ ++ (c₄ ++ (c₅ ++ (41 :: (cm ++
      aft))))))))))).length - (cm ++ aft).length := by
    simp only [List.length_cons, List.length_append]
    have htr : tokRsa.length = 3 := rfl
    omega
  rw [hdrop, hcount]

/-- C5: whenever `agent_protect` succeeds, `calculate_mic` on the same
plaintext buffer succeeds and hashes exactly the same byte span that
`agent_protect` hashed inline: the inner `(ALGO (p V)...)` list from
`hash_begin` through `hash_end` inclusive, both parentheses included. -/
theorem calculate_mic_agrees
    {H : Bytes → Bytes} {enc : Bytes → Bytes → Bytes → Bytes}
    {rnd k pw res : Bytes} {rlen : Nat}
    (h : agent_protect H enc rnd k pw = .ok (res, rlen)) :
    ∃ pp, protectParse k = .ok pp ∧
      calculate_mic H k =
        .ok (H ((k.drop pp.hashBegin).take (pp.hashEnd + 1 - pp.hashBegin))) := by
  rcases hparse : protectParse k with e | pp
  · rw [agent_protect, hparse] at h; exact absurd h (by simp)
  exact ⟨pp, rfl, calc_mic_eval hparse⟩

theorem calculate_mic_agrees_witness :
    ∃ pp, protectParse kC = .ok pp ∧
      calculate_mic cH kC =
        .ok (cH ((kC.drop pp.hashBegin).take (pp.hashEnd + 1 - pp.hashBegin))) :=
  @calculate_mic_agrees cH cEnc cRnd kC cPw c4run.1 c4run.2 (by rfl)

/-! ### Classifier characterization (`agent_private_key_type`) -/

/-- The buffer opens a list whose first element is the atom `tok`. -/
def TopAtom (b tok : Bytes) : Prop :=
  ∃ hd rest, b = 40 :: (hd ++ (tok ++ rest)) ∧ SnextC hd tok.length

theorem valAcc_ge (ds : Bytes) : ∀ a, a ≤ valAcc ds a := by
  induction ds with
  | nil => intro a; exact le_refl a
  | cons d dt ih =>
    intro a
    have h1 : a ≤ a * 10 + (d - 48) := by omega
    exact le_trans h1 (ih (a * 10 + (d - 48)))

/-- The only no-leading-zero digit string of value 11 is `"11"`. -/
theorem valAcc_eleven {ds : Bytes} (hd : ∀ c ∈ ds, digitp c = true)
    (hv : valAcc ds 0 = 11) (hz : ds.head? ≠ some 48) : ds = [49, 49] := by
  match ds with
  | [] => simp [valAcc] at hv
  | [a] =>
    have ha := hd a (by simp)
    simp [digitp] at ha
    simp [valAcc] at hv
    omega
  | [a, b] =>
    have ha := hd a (by simp)
    have hb := hd b (by simp)
    simp [digitp] at ha hb
    simp [valAcc] at hv
    have ha48 : a ≠ 48 := by intro he; rw [he] at hz; simp at hz
    have : a = 49 ∧ b = 49 := by omega
    simp [this.1, this.2]
  | a :: b :: c :: rest =>
    have ha := hd a (by simp)
    have hb := hd b (by simp)
    have hc := hd c (by simp)
    simp [digitp] at ha hb hc
    have ha48 : a ≠ 48 := by intro he; rw [he] at hz; simp at hz
    have hval : valAcc (a :: b :: c :: rest) 0 =
        valAcc rest ((((0 * 10 + (a - 48)) * 10 + (b - 48)) * 10 + (c - 48))) := rfl
    have hge := valAcc_ge rest ((((0 * 10 + (a - 48)) * 10 + (b - 48)) * 10 + (c - 48)))
    rw [hval] at hv
    omega

/-- The classifier always lands in one of the four variants. -/
theorem pkt_total (b : Bytes) :
    agent_private_key_type b = .unknown ∨ agent_private_key_type b = .clear ∨
    agent_private_key_type b = .protectedKey ∨ agent_private_key_type b = .shadowed := by
  rcases h : agent_private_key_type b with _ | _ | _ | _
  · exact Or.inl rfl
  · exact Or.inr (Or.inl rfl)
  · exact Or.inr (Or.inr (Or.inl rfl))
  · exact Or.inr (Or.inr (Or.inr rfl))

theorem pkt_protected_iff (b : Bytes) :
    agent_private_key_type b = .protectedKey ↔ TopAtom b tokProtectedPrivateKey := by
  constructor
  · intro h
    match b with
    | [] => exact absurd h (by simp [agent_private_key_type])
    | ck :: s0 =>
      rw [agent_private_key_type] at h
      by_cases hck : ck = 40
      case neg => rw [if_pos hck] at h; cases h
      rw [if_neg (not_not_intro hck)] at h
      subst hck
      rcases hsn : snext s0 with _ | ⟨n, s1⟩
      · rw [hsn] at h; simp at h
      rw [hsn] at h
      simp only at h
      split at h
      · rename_i h1
        rcases Option.isSome_iff_exists.mp h1 with ⟨s2, hm⟩
        obtain ⟨hn, hs1⟩ := smatch_decomp hm
        obtain ⟨hdr, hs0, hsc⟩ := snext_decomp hsn
        exact ⟨hdr, s2, by rw [hs0, hs1], by rw [← hn]; exact hsc⟩
      · split at h
        · cases h
        · split at h
          · cases h
          · cases h
  · rintro ⟨hdr, rest, rfl, hsc⟩
    rw [agent_private_key_type]
    rw [if_neg (by simp)]
    rw [hsc.run]
    simp only
    rw [smatch_tok tokProtectedPrivateKey rest]
    simp

theorem pkt_shadowed_iff (b : Bytes) :
    agent_private_key_type b = .shadowed ↔ TopAtom b tokShadowedPrivateKey := by
  constructor
  · intro h
    match b with
    | [] => exact absurd h (by simp [agent_private_key_type])
    | ck :: s0 =>
      rw [agent_private_key_type] at h
      by_cases hck : ck = 40
      case neg => rw [if_pos hck] at h; cases h
      rw [if_neg (not_not_intro hck)] at h
      subst hck
      rcases hsn : snext s0 with _ | ⟨n, s1⟩
      · rw [hsn] at h; simp at h
      rw [hsn] at h
      simp only at h
      split at h
      · cases h
      · split at h
        · rename_i h1 h2
          rcases Option.isSome_iff_exists.mp h2 with ⟨s2, hm⟩
          obtain ⟨hn, hs1⟩ := smatch_decomp hm
          obtain ⟨hdr, hs0, hsc⟩ := snext_decomp hsn
          exact ⟨hdr, s2, by rw [hs0, hs1], by rw [← hn]; exact hsc⟩
        · split at h
          · cases h
          · cases h
  · rintro ⟨hdr, rest, rfl, hsc⟩
    rw [agent_private_key_type]
    rw [if_neg (by simp)]
    rw [hsc.run]
    simp only
    rw [smatch_ne (by decide), smatch_tok tokShadowedPrivateKey rest]
    simp

theorem pkt_clear_iff (b : Bytes) :
    agent_private_key_type b = .clear ↔ TopAtom b tokPrivateKey := by
  constructor
  · intro h
    match b with
    | [] => exact absurd h (by simp [agent_private_key_type])
    | ck :: s0 =>
      rw [agent_private_key_type] at h
      by_cases hck : ck = 40
      case neg => rw [if_pos hck] at h; cases h
      rw [if_neg (not_not_intro hck)] at h
      subst hck
      rcases hsn : snext s0 with _ | ⟨n, s1⟩
      · rw [hsn] at h; simp at h
      rw [hsn] at h
      simp only at h
      split at h
      · cases h
      · split at h
        · cases h
        · split at h
          · rename_i h1 h2 h3
            rcases Option.isSome_iff_exists.mp h3 with ⟨s2, hm⟩
            obtain ⟨hn, hs1⟩ := smatch_decomp hm
            obtain ⟨hdr, hs0, hsc⟩ := snext_decomp hsn
            exact ⟨hdr, s2, by rw [hs0, hs1], by rw [← hn]; exact hsc⟩
          · cases h
  · rintro ⟨hdr, rest, rfl, hsc⟩
    rw [agent_private_key_type]
    rw [if_neg (by simp)]
    rw [hsc.run]
    simp only
    rw [smatch_ne (by decide), smatch_ne (by decide), smatch_tok tokPrivateKey rest]
    simp

/-- On a canonical key, the buffer built by `agent_protect` opens with the
atom `protected-private-key`. -/
theorem protect_output_topatom
    {H : Bytes → Bytes} {enc : Bytes → Bytes → Bytes → Bytes}
    {rnd k pw res : Bytes} {rlen : Nat}
    (hc : canonLen k = k.length)
    (h : agent_protect H enc rnd k pw = .ok (res, rlen)) :
    TopAtom res tokProtectedPrivateKey := by
  rcases hparse : protectParse k with e | pp
  · rw [agent_protect, hparse] at h; exact absurd h (by simp)
  rw [agent_protect, hparse] at h
  simp only at h
  rcases hdo : do_encryption H enc
      ((k.drop pp.protBegin).take (pp.protEnd + 1 - pp.protBegin)) pw
      (H ((k.drop pp.hashBegin).take (pp.hashEnd + 1 - pp.hashBegin))) rnd with e | plist
  · rw [hdo] at h; exact absurd h (by simp)
  rw [hdo] at h
  simp only [Except.ok.injEq, Prod.mk.injEq] at h
  obtain ⟨hres, _⟩ := h
  obtain ⟨h₀, h₁, c₀, c₁, c₂, c₃, c₄, c₅, cm, aft, hk, hS0, hS1, hp0, hp1, hp2,
    hp3, hp4, hp5, hcm, hOB, hOP, hOE, hOH, hOR⟩ := protectParse_shape hparse
  subst hk
  -- pin the outer length header to "11:" using canonicality
  rw [canonLen] at hc
  split at hc
  case h_2 => simp at hc
  rename_i s' hscan
  have hs' : s' = [] := by
    simp only [List.length_cons] at hc
    have := List.length_eq_zero.mp (show s'.length = 0 by omega)
    exact this
  subst hs'
  have hbody : h₀ ++ (tokPrivateKey ++ (40 :: (h₁ ++ (tokRsa ++ (c₀ ++ (c₁ ++ (c₂ ++
      (c₃ ++ (c₄ ++ (c₅ ++ (41 :: (cm ++ aft)))))))))))) =
      (h₀ ++ tokPrivateKey) ++ (40 :: (h₁ ++ (tokRsa ++ (c₀ ++ (c₁ ++ (c₂ ++
      (c₃ ++ (c₄ ++ (c₅ ++ (41 :: (cm ++ aft))))))))))) := by simp
  rw [hbody] at hscan
  have hpeel := strict_peel_atom hS0 (show tokPrivateKey.length = 11 from rfl) hscan
      (by simp only [List.length_append, List.length_cons]; omega)
  obtain ⟨ds, hdse, hdsd, hdsv, _⟩ := hS0
  have hdz : ds.head? ≠ some 48 := by
    intro hcon
    apply hpeel.1
    cases ds with
    | nil => simp [valAcc] at hdsv
    | cons d dt =>
      simp at hcon
      rw [hdse, hcon]
      simp
  have hds : ds = [49, 49] := valAcc_eleven hdsd hdsv hdz
  have hdse3 : h₀ = [49, 49, 58] := by rw [hdse, hds]; rfl
  subst hdse3
  -- now the head of the output
  have hd4 : (40 :: (([49, 49, 58] : Bytes) ++ (tokPrivateKey ++ (40 :: (h₁ ++ (tokRsa ++
      (c₀ ++ (c₁ ++ (c₂ ++ (c₃ ++ (c₄ ++ (c₅ ++ (41 :: (cm ++ aft)))))))))))))).drop 4 =
      tokPrivateKey ++ (40 :: (h₁ ++ (tokRsa ++ (c₀ ++ (c₁ ++ (c₂ ++ (c₃ ++ (c₄ ++
      (c₅ ++ (41 :: (cm ++ aft))))))))))) := rfl
  rw [hd4] at hres
  have hpb : 11 ≤ pp.protBegin - 4 := by
    simp only [List.length_cons, List.length_nil] at hOB
    omega
  have htake : (tokPrivateKey ++ (40 :: (h₁ ++ (tokRsa ++ (c₀ ++ (c₁ ++ (c₂ ++ (c₃ ++
      (c₄ ++ (c₅ ++ (41 :: (cm ++ aft)))))))))))).take (pp.protBegin - 4) =
      tokPrivateKey ++ (40 :: (h₁ ++ (tokRsa ++ (c₀ ++ (c₁ ++ (c₂ ++ (c₃ ++ (c₄ ++
      (c₅ ++ (41 :: (cm ++ aft))))))))))).take (pp.protBegin - 4 - 11) := by
    rw [List.take_append_eq_append_take]
    congr 1
    exact List.take_of_length_le (by simpa using hpb)
  rw [htake] at hres
  refine ⟨[50, 49, 58],
    ((40 :: (h₁ ++ (tokRsa ++ (c₀ ++ (c₁ ++ (c₂ ++ (c₃ ++ (c₄ ++ (c₅ ++ (41 :: (cm ++
      aft))))))))))).take (pp.protBegin - 4 - 11)) ++ (plist ++
      ((40 :: (([49, 49, 58] : Bytes) ++ (tokPrivateKey ++ (40 :: (h₁ ++ (tokRsa ++
        (c₀ ++ (c₁ ++ (c₂ ++ (c₃ ++ (c₄ ++ (c₅ ++ (41 :: (cm ++
        aft)))))))))))))).drop (pp.protEnd + 1)).take (pp.realEnd - pp.protEnd)),
    ?_, ⟨[50, 49], rfl, by decide, by decide, by decide⟩⟩
  rw [← hres]
  simp [litProtHead, tokProtectedPrivateKey, tokPrivateKey]

/-- A successful `agent_shadow_key` returns the documented three-span
assembly around the inserted `(shadowed t1-v1 SI)` list. -/
theorem agent_shadow_key_ok_form {pub si res : Bytes}
    (h : agent_shadow_key pub si = .ok res) :
    ∃ point, res = litShadowHead ++ (pub.drop 14).take (point - 14) ++
      litShadowList ++ si.take (canonLen si) ++ [41] ++
      (pub.drop point).take (canonLen pub - point) := by
  rw [agent_shadow_key.eq_def] at h
  by_cases hz : canonLen pub = 0 ∨ canonLen si = 0
  · rw [if_pos hz] at h; cases h
  rw [if_neg hz] at h
  match pub, h with
  | [], h => cases h
  | ck :: s0, h =>
    simp only at h
    by_cases hck : ck = 40
    case neg => rw [if_pos hck] at h; cases h
    rw [if_neg (not_not_intro hck)] at h
    subst hck
    rcases hsn : snext s0 with _ | ⟨n, s1⟩
    · rw [hsn] at h; exact absurd h (by simp)
    rw [hsn] at h
    simp only at h
    rcases hsm : smatch s1 n tokPublicKey with _ | s2
    · rw [hsm] at h; exact absurd h (by simp)
    rw [hsm] at h
    simp only at h
    match s2, h with
    | [], h => exact absurd h (by simp)
    | c2 :: s3, h =>
    simp only at h
    by_cases hc2 : c2 = 40
    case neg => rw [if_pos hc2] at h; cases h
    rw [if_neg (not_not_intro hc2)] at h
    subst hc2
    rcases hsn2 : snext s3 with _ | ⟨n2, s4⟩
    · rw [hsn2] at h; exact absurd h (by simp)
    rw [hsn2] at h
    simp only at h
    rcases hsp : shadowPairsF (s4.drop n2).length (s4.drop n2) with _ | s5
    · rw [hsp] at h; exact absurd h (by simp)
    rw [hsp] at h
    simp only [Except.ok.injEq] at h
    exact ⟨(40 :: s0).length - s5.length, h.symm⟩

/-- The buffer built by `agent_shadow_key` opens with the atom
`shadowed-private-key`. -/
theorem shadow_output_topatom {pub si res : Bytes}
    (h : agent_shadow_key pub si = .ok res) :
    TopAtom res tokShadowedPrivateKey := by
  obtain ⟨point, hres⟩ := agent_shadow_key_ok_form h
  refine ⟨[50, 48, 58],
    (pub.drop 14).take (point - 14) ++ (litShadowList ++ (si.take (canonLen si) ++
      ([41] ++ (pub.drop point).take (canonLen pub - point)))), ?_,
    ⟨[50, 48], rfl, by decide, by decide, by decide⟩⟩
  rw [hres]
  simp [litShadowHead, tokShadowedPrivateKey]

/-- C7: `agent_private_key_type` always lands in one of the four variants;
it returns `protectedKey` / `shadowed` / `clear` exactly when the top-level
atom is `protected-private-key` / `shadowed-private-key` / `private-key`
(and `unknown` otherwise, by exclusion); every buffer produced by
`agent_protect` on a canonical key classifies as protected and every buffer
produced by `agent_shadow_key` classifies as shadowed. -/
theorem agent_private_key_type_spec :
    (∀ b, agent_private_key_type b = .unknown ∨ agent_private_key_type b = .clear ∨
      agent_private_key_type b = .protectedKey ∨ agent_private_key_type b = .shadowed) ∧
    (∀ b, agent_private_key_type b = .protectedKey ↔ TopAtom b tokProtectedPrivateKey) ∧
    (∀ b, agent_private_key_type b = .shadowed ↔ TopAtom b tokShadowedPrivateKey) ∧
    (∀ b, agent_private_key_type b = .clear ↔ TopAtom b tokPrivateKey) ∧
    (∀ (H : Bytes → Bytes) (enc : Bytes → Bytes → Bytes → Bytes)
       (rnd k pw res : Bytes) (rlen : Nat), canonLen k = k.length →
      agent_protect H enc rnd k pw = .ok (res, rlen) →
      agent_private_key_type res = .protectedKey) ∧
    (∀ pub si res, agent_shadow_key pub si = .ok res →
      agent_private_key_type res = .shadowed) :=
  ⟨pkt_total, pkt_protected_iff, pkt_shadowed_iff, pkt_clear_iff,
   fun _ _ _ _ _ res _ hc h => (pkt_protected_iff res).mpr (protect_output_topatom hc h),
   fun _ _ res h => (pkt_shadowed_iff res).mpr (shadow_output_topatom h)⟩

/-- A concrete canonical RSA public key
`(10:public-key(3:rsa(1:n1:A)(1:e1:B)))`. -/
def pubC : Bytes :=
  [40,49,48,58,112,117,98,108,105,99,45,107,101,121,
   40,51,58,114,115,97,
   40,49,58,110,49,58,65,41,
   40,49,58,101,49,58,66,41,
   41,41]

/-- A concrete canonical shadow-info value `(3:abc)`. -/
def siC : Bytes := [40,51,58,97,98,99,41]

/-- The buffer `agent_shadow_key` produces on the concrete inputs. -/
def c6run : Bytes :=
  match agent_shadow_key pubC siC with
  | .ok v => v
  | .error _ => []

theorem agent_private_key_type_spec_witness :
    agent_private_key_type c4run.1 = .protectedKey ∧
    agent_private_key_type c6run = .shadowed ∧
    agent_private_key_type kC = .clear :=
  ⟨agent_private_key_type_spec.2.2.2.2.1 cH cEnc cRnd kC cPw c4run.1 c4run.2
     (by rfl) (by rfl),
   agent_private_key_type_spec.2.2.2.2.2 pubC siC c6run (by rfl),
   (agent_private_key_type_spec.2.2.2.1 kC).mpr
     ⟨[49, 49, 58],
      [40,51,58,114,115,97,
       40,49,58,110,49,58,65,41,
       40,49,58,101,49,58,66,41,
       40,49,58,100,49,58,67,41,
       40,49,58,112,49,58,68,41,
       40,49,58,113,49,58,69,41,
       40,49,58,117,49,58,70,41,
       41,41], by rfl, ⟨[49, 49], rfl, by decide, by decide, by decide⟩⟩⟩

/-! ### Frame behaviour of the output locations (C3) -/

set_option maxRecDepth 4000 in
/-- Counterexample to the unqualified frame claim: when the final allocation
in `agent_protect` fails, the function has already stored the computed length
into `*resultlen` and NULL into `*result`, so an error return leaves the
caller's locations changed. -/
theorem agent_protect_locs_counterexample :
    agent_protect_locs cH cEnc cRnd kC cPw false (some [7], 5) =
      (.error .OutOfCore, (none, 216)) ∧
    ((none, 216) : Option Bytes × Nat) ≠ (some [7], 5) :=
  ⟨by rfl, by decide⟩

/-- C3 (amended): on an error return the output locations are unchanged,
except for the out-of-core path after a successful build: `agent_protect`
then has already written `*resultlen` (the would-be length, the one the pure
function reports) and NULLed `*result`, and `agent_shadow_key` has NULLed
`*result`; `agent_unprotect` never writes on error. -/
theorem locs_unwritten_on_error :
    (∀ (H : Bytes → Bytes) (enc : Bytes → Bytes → Bytes → Bytes)
       (rnd k pw : Bytes) (allocOk : Bool) (loc : Option Bytes × Nat)
       (e : Err) (lc : Option Bytes × Nat),
       agent_protect_locs H enc rnd k pw allocOk loc = (.error e, lc) →
       lc = loc ∨ (e = .OutOfCore ∧ ∃ res rlen,
         agent_protect H enc rnd k pw = .ok (res, rlen) ∧ lc = (none, rlen))) ∧
    (∀ (H : Bytes → Bytes) (dec : Bytes → Bytes → Bytes → Bytes)
       (pk pw : Bytes) (loc : Option Bytes × Nat) (e : Err) (lc : Option Bytes × Nat),
       agent_unprotect_locs H dec pk pw loc = (.error e, lc) → lc = loc) ∧
    (∀ (pub si : Bytes) (allocOk : Bool) (loc : Option Bytes)
       (e : Err) (lc : Option Bytes),
       agent_shadow_key_locs pub si allocOk loc = (.error e, lc) →
       lc = loc ∨ (e = .OutOfCore ∧ lc = none)) := by
  refine ⟨?_, ?_, ?_⟩
  · intro H enc rnd k pw allocOk loc e lc h
    rw [agent_protect_locs] at h
    rcases hparse : protectParse k with er | pp
    · rw [hparse] at h
      simp only [Prod.mk.injEq] at h
      exact Or.inl h.2.symm
    rw [hparse] at h
    simp only at h
    rcases hdo : do_encryption H enc
        ((k.drop pp.protBegin).take (pp.protEnd + 1 - pp.protBegin)) pw
        (H ((k.drop pp.hashBegin).take (pp.hashEnd + 1 - pp.hashBegin))) rnd with er | plist
    · rw [hdo] at h
      simp only [Prod.mk.injEq] at h
      exact Or.inl h.2.symm
    rw [hdo] at h
    simp only at h
    cases allocOk with
    | true => simp at h
    | false =>
      simp only [Bool.false_eq_true, if_false, Prod.mk.injEq, Except.error.injEq] at h
      refine Or.inr ⟨h.1.symm, ?_⟩
      refine ⟨litProtHead ++ (k.drop 4).take (pp.protBegin - 4) ++ plist ++
        (k.drop (pp.protEnd + 1)).take (pp.realEnd - pp.protEnd),
        10 + pp.protBegin + plist.length + (pp.realEnd - pp.protEnd), ?_, h.2.symm⟩
      rw [agent_protect, hparse]
      simp only
      rw [hdo]
  · intro H dec pk pw loc e lc h
    rw [agent_unprotect_locs] at h
    rcases hu : agent_unprotect H dec pk pw with er | v
    · rw [hu] at h
      simp only [Prod.mk.injEq] at h
      exact h.2.symm
    · rw [hu] at h
      obtain ⟨r, len⟩ := v
      simp at h
  · intro pub si allocOk loc e lc h
    rw [agent_shadow_key_locs] at h
    rcases hs : agent_shadow_key pub si with er | v
    · rw [hs] at h
      simp only [Prod.mk.injEq] at h
      exact Or.inl h.2.symm
    · rw [hs] at h
      simp only at h
      cases allocOk with
      | true => simp at h
      | false =>
        simp only [Bool.false_eq_true, if_false, Prod.mk.injEq, Except.error.injEq] at h
        exact Or.inr ⟨h.1.symm, h.2.symm⟩

set_option maxRecDepth 4000 in
theorem locs_unwritten_on_error_witness :
    ((none, 216) : Option Bytes × Nat) = (some [7], 5) ∨
    (Err.OutOfCore = Err.OutOfCore ∧ ∃ res rlen,
      agent_protect cH cEnc cRnd kC cPw = .ok (res, rlen) ∧
      ((none, 216) : Option Bytes × Nat) = (none, rlen)) :=
  locs_unwritten_on_error.1 cH cEnc cRnd kC cPw false (some [7], 5) .OutOfCore
    (none, 216) (by rfl)

/-- Generalized scan decomposition: a successful `sskipF` run (strict or
permissive) factors the input as consumed-chunk ++ rest with a `SkipsTo`
certificate for the chunk. -/
theorem sskipF_decomp (st : Bool) :
    ∀ (f : Nat) (s : Bytes) (d : Nat) (s' : Bytes), s.length ≤ f →
      sskipF st f s d = some s' →
      ∃ c, s = c ++ s' ∧ SkipsTo st c d 0 := by
  intro f
  induction f with
  | zero =>
    intro s d s' h1 h2
    have hs : s = [] := List.length_eq_zero.mp (by omega)
    subst hs
    cases d with
    | zero =>
      have hs' : s' = [] := by
        have he : some ([] : Bytes) = some s' := by simpa [sskipF] using h2
        simpa using he.symm
      subst hs'
      exact ⟨[], rfl, SkipsTo.nil st 0⟩
    | succ d => rw [sskipF_nil] at h2; exact absurd h2 (by simp)
  | succ f ih =>
    intro s d s' h1 h2
    cases d with
    | zero =>
      have : s' = s := by simpa [sskipF] using h2.symm
      subst this
      exact ⟨[], rfl, SkipsTo.nil st 0⟩
    | succ d =>
      cases s with
      | nil => rw [sskipF_nil] at h2; exact absurd h2 (by simp)
      | cons c rest =>
        simp only [sskipF] at h2
        by_cases h40 : c = 40
        · rw [if_pos h40] at h2
          obtain ⟨c₂, hr, hsk⟩ := ih rest (d + 2) s' (by simp at h1; omega) h2
          exact ⟨40 :: c₂, by simp [hr, h40],
            h40 ▸ (skipsTo_open st d).comp hsk⟩
        · rw [if_neg h40] at h2
          by_cases h41 : c = 41
          · rw [if_pos h41] at h2
            obtain ⟨c₂, hr, hsk⟩ := ih rest d s' (by simp at h1; omega) h2
            exact ⟨41 :: c₂, by simp [hr, h41],
              h41 ▸ (skipsTo_close st d).comp hsk⟩
          · rw [if_neg h41] at h2
            by_cases h48 : st = true ∧ c = 48
            · rw [if_pos h48] at h2; exact absurd h2 (by simp)
            rw [if_neg h48] at h2
            cases hsn : snext (c :: rest) with
            | none => rw [hsn] at h2; exact absurd h2 (by simp)
            | some v =>
              obtain ⟨n, r⟩ := v
              rw [hsn] at h2
              simp only at h2
              have hlen := snext_len hsn
              obtain ⟨hd, hhd, hsc⟩ := snext_decomp hsn
              have hdl : (r.drop n).length ≤ r.length := by
                rw [List.length_drop]; omega
              obtain ⟨c₂, hr2, hsk⟩ := ih (r.drop n) (d + 1) s'
                (by simp at h1 hlen; omega) h2
              have hnr : n < r.length := by
                rcases Nat.lt_or_ge n r.length with h | h
                · exact h
                · rw [List.drop_eq_nil_of_le h] at h2
                  rw [sskipF_nil] at h2
                  exact absurd h2 (by simp)
              have hdh : hd.head? = some c := by
                cases hd with
                | nil => have := hsc.two_le; simp at this
                | cons a t => injection hhd with ha _; exact congrArg some ha.symm
              refine ⟨hd ++ r.take n ++ c₂, ?_, ?_⟩
              · rw [hhd]
                conv_lhs => rw [← List.take_append_drop n r]
                rw [hr2]
                simp
              · refine ((skipsTo_atom hsc (by simp; omega) ?_ d)).comp hsk
                intro hst
                rw [hdh]
                intro hcon
                exact h48 ⟨hst, by simpa using hcon⟩

/-- A canonical buffer keeps its canonical length when bytes follow it. -/
theorem canonLen_extend {si : Bytes} (hsi : canonLen si = si.length)
    (hne : si ≠ []) (r : Bytes) : canonLen (si ++ r) = si.length := by
  match si, hne with
  | c :: bs, _ =>
    have hc : c = 40 := by
      by_contra hc
      rw [show canonLen (c :: bs) = 0 by
        rw [canonLen.eq_def]
        cases bs <;> simp_all] at hsi
      simp at hsi
    subst hc
    rw [canonLen] at hsi
    split at hsi
    case h_2 => simp at hsi
    rename_i s' hscan
    have hs' : s' = [] := by
      simp only [List.length_cons] at hsi
      exact List.length_eq_zero.mp (by omega)
    subst hs'
    obtain ⟨cc, hcc, hsk⟩ := sskipF_decomp true bs.length bs 1 [] le_rfl hscan
    have hbs : cc = bs := by simpa using hcc.symm
    subst hbs
    have hrun := hsk r (cc ++ r).length (by simp)
    rw [show (40 :: cc) ++ r = 40 :: (cc ++ r) by simp]
    rw [canonLen, hrun, sskipF_depth0]
    simp only [List.length_cons, List.length_append]
    omega

/-- The only no-leading-zero digit string of value 10 is `"10"`. -/
theorem valAcc_ten {ds : Bytes} (hd : ∀ c ∈ ds, digitp c = true)
    (hv : valAcc ds 0 = 10) (hz : ds.head? ≠ some 48) : ds = [49, 48] := by
  match ds with
  | [] => simp [valAcc] at hv
  | [a] =>
    have ha := hd a (by simp)
    simp [digitp] at ha
    simp [valAcc] at hv
    omega
  | [a, b] =>
    have ha := hd a (by simp)
    have hb := hd b (by simp)
    simp [digitp] at ha hb
    simp [valAcc] at hv
    have ha48 : a ≠ 48 := by intro he; rw [he] at hz; simp at hz
    have : a = 49 ∧ b = 48 := by omega
    simp [this.1, this.2]
  | a :: b :: c :: rest =>
    have ha := hd a (by simp)
    have hb := hd b (by simp)
    have hc := hd c (by simp)
    simp [digitp] at ha hb hc
    have ha48 : a ≠ 48 := by intro he; rw [he] at hz; simp at hz
    have hval : valAcc (a :: b :: c :: rest) 0 =
        valAcc rest ((((0 * 10 + (a - 48)) * 10 + (b - 48)) * 10 + (c - 48))) := rfl
    have hge := valAcc_ge rest ((((0 * 10 + (a - 48)) * 10 + (b - 48)) * 10 + (c - 48)))
    rw [hval] at hv
    omega

/-- `smatch` fails when the buffer's leading atom is a different token of any
length. -/
theorem smatch_name {nm rest tok : Bytes} (h : nm ≠ tok) :
    smatch (nm ++ rest) nm.length tok = none := by
  by_cases hl : nm.length = tok.length
  · rw [smatch]
    rw [if_neg]
    rintro ⟨-, htk⟩
    rw [← hl, List.take_left] at htk
    exact h htk
  · exact smatch_ne hl

/-! ### The shadow-key pair walk and the `shadowed`-search loop -/

theorem shadowPairsF_nil (f : Nat) : shadowPairsF f [] = none := by
  cases f <;> rfl

theorem shadowPairsF_stop41 (r : Bytes) (f : Nat) :
    shadowPairsF f (41 :: r) = some (41 :: r) := by
  cases f <;> simp [shadowPairsF]

theorem shadowPairsF_fuelIrrel :
    ∀ (f : Nat) (s : Bytes) (f' : Nat), s.length ≤ f → s.length ≤ f' →
      shadowPairsF f s = shadowPairsF f' s := by
  intro f
  induction f with
  | zero =>
    intro s f' h1 _
    have : s = [] := List.length_eq_zero.mp (by omega)
    subst this
    rw [shadowPairsF_nil, shadowPairsF_nil]
  | succ f ih =>
    intro s f' h1 h2
    cases s with
    | nil => rw [shadowPairsF_nil, shadowPairsF_nil]
    | cons c rest =>
      by_cases h41 : c = 41
      · subst h41; rw [shadowPairsF_stop41, shadowPairsF_stop41]
      by_cases hc : c = 40
      · subst hc
        obtain ⟨g, rfl⟩ : ∃ g, f' = g + 1 := ⟨f' - 1, by simp at h2; omega⟩
        simp only [shadowPairsF, if_neg (by decide : ¬((40:Nat) = 41)), if_pos rfl]
        cases hsn : snext rest with
        | none => rfl
        | some v1 =>
          obtain ⟨n, r⟩ := v1
          have hl1 := snext_len hsn
          simp only
          cases hsn2 : snext (r.drop n) with
          | none => rfl
          | some v2 =>
            obtain ⟨n2, r2⟩ := v2
            have hl2 := snext_len hsn2
            have hdl : (r.drop n).length ≤ r.length := by rw [List.length_drop]; omega
            simp only
            cases hdr : r2.drop n2 with
            | nil => rfl
            | cons c3 r3 =>
              have hl3 : r3.length < r2.length := by
                have := List.length_drop n2 r2
                rw [hdr] at this
                simp at this
                omega
              by_cases hc3 : c3 = 41
              · simp only [if_pos hc3]
                exact ih r3 g (by simp at h1; omega) (by simp at h2; omega)
              · simp only [if_neg hc3]
      · cases f' with
        | zero =>
          simp at h2
        | succ g =>
          simp only [shadowPairsF, if_neg h41, if_neg hc]

theorem shadowPairsF_pair {c nm : Bytes} (hp : PairS c nm) :
    ∀ (r : Bytes) (f : Nat), c.length + r.length ≤ f →
      shadowPairsF f (c ++ r) = shadowPairsF f r := by
  obtain ⟨h₁, h₂, v, rfl, s1, s2⟩ := hp
  intro r f hf
  simp only [List.length_cons, List.length_append, List.length_singleton] at hf
  obtain ⟨g, rfl⟩ : ∃ g, f = g + 1 := ⟨f - 1, by omega⟩
  rw [show (40 :: (h₁ ++ nm ++ (h₂ ++ v ++ [41]))) ++ r
      = 40 :: (h₁ ++ (nm ++ (h₂ ++ v ++ 41 :: r))) by simp]
  simp only [shadowPairsF, if_neg (by decide : ¬((40:Nat) = 41)), if_pos rfl]
  rw [s1.run (nm ++ (h₂ ++ v ++ 41 :: r))]
  simp only
  rw [List.drop_append_of_le_length (by simp), List.drop_eq_nil_of_le (by simp),
      List.nil_append]
  rw [show (h₂ ++ v ++ 41 :: r : Bytes) = h₂ ++ (v ++ 41 :: r) by simp]
  rw [s2.run (v ++ 41 :: r)]
  simp only
  rw [List.drop_append_of_le_length (by simp), List.drop_eq_nil_of_le (by simp),
      List.nil_append]
  simp only [if_pos rfl]
  exact shadowPairsF_fuelIrrel g r (g + 1) (by omega) (by omega)

theorem shadowPairsF_chain :
    ∀ (ch : List (Bytes × Bytes)), (∀ p ∈ ch, PairS p.1 p.2) →
      ∀ (r : Bytes) (f : Nat), ((ch.map Prod.fst).flatten).length + r.length ≤ f →
        shadowPairsF f ((ch.map Prod.fst).flatten ++ r) = shadowPairsF f r := by
  intro ch
  induction ch with
  | nil => intro _ r f _; simp
  | cons p ch ih =>
    intro hall r f hf
    have hj : ((p :: ch).map Prod.fst).flatten = p.1 ++ (ch.map Prod.fst).flatten := by simp
    rw [hj] at hf ⊢
    simp only [List.length_append] at hf
    rw [List.append_assoc]
    rw [shadowPairsF_pair (hall p (by simp)) _ f
      (by simp only [List.length_append]; omega)]
    exact ih (fun q hq => hall q (by simp [hq])) r f (by omega)

theorem findShadowedF_nil (f : Nat) : findShadowedF f [] = .error .InvalidSexp := by
  cases f <;> rfl

theorem findShadowedF_fuelIrrel :
    ∀ (f : Nat) (s : Bytes) (f' : Nat), s.length ≤ f → s.length ≤ f' →
      findShadowedF f s = findShadowedF f' s := by
  intro f
  induction f with
  | zero =>
    intro s f' h1 _
    have : s = [] := List.length_eq_zero.mp (by omega)
    subst this
    rw [findShadowedF_nil, findShadowedF_nil]
  | succ f ih =>
    intro s f' h1 h2
    cases s with
    | nil => rw [findShadowedF_nil, findShadowedF_nil]
    | cons c rest =>
      by_cases h41 : c = 41
      · subst h41
        obtain ⟨g, rfl⟩ : ∃ g, f' = g + 1 := ⟨f' - 1, by simp at h2; omega⟩
        simp [findShadowedF]
      by_cases hc : c = 40
      · subst hc
        obtain ⟨g, rfl⟩ : ∃ g, f' = g + 1 := ⟨f' - 1, by simp at h2; omega⟩
        simp only [findShadowedF, if_neg (by decide : ¬((40:Nat) = 41)), if_pos rfl]
        cases hsn : snext rest with
        | none => rfl
        | some v1 =>
          obtain ⟨n, r⟩ := v1
          have hl1 := snext_len hsn
          simp only
          cases hsm : smatch r n tokShadowedStr with
          | some s3 => rfl
          | none =>
            simp only
            cases hsn2 : snext (r.drop n) with
            | none => rfl
            | some v2 =>
              obtain ⟨n2, r2⟩ := v2
              have hl2 := snext_len hsn2
              have hdl : (r.drop n).length ≤ r.length := by rw [List.length_drop]; omega
              simp only
              cases hdr : r2.drop n2 with
              | nil => rfl
              | cons c3 r3 =>
                have hl3 : r3.length < r2.length := by
                  have := List.length_drop n2 r2
                  rw [hdr] at this
                  simp at this
                  omega
                by_cases hc3 : c3 = 41
                · simp only [if_pos hc3]
                  exact ih r3 g (by simp at h1; omega) (by simp at h2; omega)
                · simp only [if_neg hc3]
      · cases f' with
        | zero => simp at h2
        | succ g => simp only [findShadowedF, if_neg h41, if_neg hc]

theorem findShadowedF_pair {c nm : Bytes} (hp : PairS c nm)
    (hne : nm ≠ tokShadowedStr) :
    ∀ (r : Bytes) (f : Nat), c.length + r.length ≤ f →
      findShadowedF f (c ++ r) = findShadowedF f r := by
  obtain ⟨h₁, h₂, v, rfl, s1, s2⟩ := hp
  intro r f hf
  simp only [List.length_cons, List.length_append, List.length_singleton] at hf
  obtain ⟨g, rfl⟩ : ∃ g, f = g + 1 := ⟨f - 1, by omega⟩
  rw [show (40 :: (h₁ ++ nm ++ (h₂ ++ v ++ [41]))) ++ r
      = 40 :: (h₁ ++ (nm ++ (h₂ ++ v ++ 41 :: r))) by simp]
  simp only [findShadowedF, if_neg (by decide : ¬((40:Nat) = 41)), if_pos rfl]
  rw [s1.run (nm ++ (h₂ ++ v ++ 41 :: r))]
  simp only
  rw [smatch_name hne]
  simp only
  rw [List.drop_append_of_le_length (by simp), List.drop_eq_nil_of_le (by simp),
      List.nil_append]
  rw [show (h₂ ++ v ++ 41 :: r : Bytes) = h₂ ++ (v ++ 41 :: r) by simp]
  rw [s2.run (v ++ 41 :: r)]
  simp only
  rw [List.drop_append_of_le_length (by simp), List.drop_eq_nil_of_le (by simp),
      List.nil_append]
  simp only [if_pos rfl]
  exact findShadowedF_fuelIrrel g r (g + 1) (by omega) (by omega)

theorem findShadowedF_chain :
    ∀ (ch : List (Bytes × Bytes)),
      (∀ p ∈ ch, PairS p.1 p.2 ∧ p.2 ≠ tokShadowedStr) →
      ∀ (r : Bytes) (f : Nat), ((ch.map Prod.fst).flatten).length + r.length ≤ f →
        findShadowedF f ((ch.map Prod.fst).flatten ++ r) = findShadowedF f r := by
  intro ch
  induction ch with
  | nil => intro _ r f _; simp
  | cons p ch ih =>
    intro hall r f hf
    have hj : ((p :: ch).map Prod.fst).flatten = p.1 ++ (ch.map Prod.fst).flatten := by simp
    rw [hj] at hf ⊢
    simp only [List.length_append] at hf
    rw [List.append_assoc]
    rw [findShadowedF_pair (hall p (by simp)).1 (hall p (by simp)).2 _ f
      (by simp only [List.length_append]; omega)]
    exact ih (fun q hq => hall q (by simp [hq])) r f (by omega)

theorem findShadowedF_found {h rest : Bytes} (hs : SnextC h 8) (f : Nat) :
    findShadowedF f (40 :: (h ++ (tokShadowedStr ++ rest))) = .ok rest := by
  cases f with
  | zero =>
    simp only [findShadowedF, if_neg (by decide : ¬((40:Nat) = 41)), if_pos rfl]
    rw [hs.run (tokShadowedStr ++ rest)]
    simp only
    rw [show smatch (tokShadowedStr ++ rest) 8 tokShadowedStr = some rest from
      smatch_tok tokShadowedStr rest]
    simp
  | succ g =>
    simp only [findShadowedF, if_neg (by decide : ¬((40:Nat) = 41)), if_pos rfl]
    rw [hs.run (tokShadowedStr ++ rest)]
    simp only
    rw [show smatch (tokShadowedStr ++ rest) 8 tokShadowedStr = some rest from
      smatch_tok tokShadowedStr rest]
    simp

/-- Evaluation of `agent_get_shadow_info` on the buffer shape produced by
`agent_shadow_key`: skip the copied parameter pairs, find the inserted
`(shadowed t1-v1 SI)` list and return the position of SI. -/
theorem get_shadow_info_eval
    {si h₁ alg : Bytes} {chain : List (Bytes × Bytes)}
    (hS1 : SnextC h₁ alg.length)
    (hchain : ∀ p ∈ chain, PairS p.1 p.2 ∧ p.2 ≠ tokShadowedStr)
    (hsihead : ∃ bs, si = 40 :: bs) :
    agent_get_shadow_info (litShadowHead ++ (40 :: (h₁ ++ (alg ++
        (chain.map Prod.fst).flatten))) ++ litShadowList ++ si ++ [41] ++ [41, 41]) =
      .ok (si ++ [41, 41, 41]) := by
  have hshape : litShadowHead ++ (40 :: (h₁ ++ (alg ++
        (chain.map Prod.fst).flatten))) ++ litShadowList ++ si ++ [41] ++ [41, 41] =
      40 :: (([50, 48, 58] : Bytes) ++ (tokShadowedPrivateKey ++ (40 :: (h₁ ++ (alg ++
        ((chain.map Prod.fst).flatten ++ (litShadowList ++ (si ++ [41, 41, 41])))))))) := by
    simp [litShadowHead, tokShadowedPrivateKey]
  rw [hshape]
  rw [agent_get_shadow_info]
  have h20 : SnextC ([50, 48, 58] : Bytes) 20 := ⟨[50, 48], rfl, by decide, by decide, by decide⟩
  rw [h20.run]
  simp only
  rw [show smatch (tokShadowedPrivateKey ++ (40 :: (h₁ ++ (alg ++
      ((chain.map Prod.fst).flatten ++ (litShadowList ++ (si ++ [41, 41, 41]))))))) 20
      tokShadowedPrivateKey = some (40 :: (h₁ ++ (alg ++
      ((chain.map Prod.fst).flatten ++ (litShadowList ++ (si ++ [41, 41, 41]))))))
    from smatch_tok tokShadowedPrivateKey _]
  simp only
  rw [hS1.run]
  simp only
  rw [List.drop_left alg]
  rw [findShadowedF_chain chain hchain _ _ (by simp)]
  have hlsl : litShadowList ++ (si ++ [41, 41, 41]) =
      40 :: (([56, 58] : Bytes) ++ (tokShadowedStr ++ (([53, 58] : Bytes) ++ (tokT1V1 ++
        (si ++ [41, 41, 41]))))) := by
    simp [litShadowList, tokShadowedStr, tokT1V1]
  rw [hlsl]
  have h8 : SnextC ([56, 58] : Bytes) 8 := ⟨[56], rfl, by decide, by decide, by decide⟩
  rw [findShadowedF_found h8]
  simp only
  have h5 : SnextC ([53, 58] : Bytes) 5 := ⟨[53], rfl, by decide, by decide, by decide⟩
  rw [h5.run]
  simp only
  rw [show smatch (tokT1V1 ++ (si ++ [41, 41, 41])) 5 tokT1V1 =
      some (si ++ [41, 41, 41]) from smatch_tok tokT1V1 _]
  simp only
  obtain ⟨bs, rfl⟩ := hsihead
  rw [if_pos (show byteAt ((40 :: bs) ++ [41, 41, 41]) 0 = 40 from rfl)]

/-- A nonempty canonical buffer begins with an open parenthesis. -/
theorem canonical_head {si : Bytes} (hsi : canonLen si = si.length)
    (hne : si ≠ []) : ∃ bs, si = 40 :: bs := by
  match si, hne with
  | c :: bs, _ =>
    have hc : c = 40 := by
      by_contra hc
      rw [show canonLen (c :: bs) = 0 by
        rw [canonLen.eq_def]
        cases bs <;> simp_all] at hsi
      simp at hsi
    exact ⟨bs, by rw [hc]⟩

/-- C6 (amended): for every canonical public key of the walked shape whose
parameter pairs are not named `shadowed`, and every canonical nonempty
shadow-info value, `agent_shadow_key` succeeds and `agent_get_shadow_info`
on its output returns the byte position whose leading canonical value is
the original shadow info byte-for-byte. -/
theorem shadow_get_shadow_info_roundtrip
    {pub si h₀ h₁ alg : Bytes} {chain : List (Bytes × Bytes)}
    (hpub : pub = 40 :: (h₀ ++ (tokPublicKey ++ (40 :: (h₁ ++ (alg ++
      ((chain.map Prod.fst).flatten ++ [41, 41])))))))
    (hS0 : SnextC h₀ 10) (hS1 : SnextC h₁ alg.length)
    (hchain : ∀ p ∈ chain, PairS p.1 p.2 ∧ p.2 ≠ tokShadowedStr)
    (hcp : canonLen pub = pub.length)
    (hsi : canonLen si = si.length) (hsine : si ≠ []) :
    ∃ res, agent_shadow_key pub si = .ok res ∧
      ∃ t, agent_get_shadow_info res = .ok (si ++ t) ∧
        (si ++ t).take (canonLen (si ++ t)) = si := by
  subst hpub
  have hS0' := hS0
  have hcp2 := hcp
  rw [canonLen] at hcp2
  split at hcp2
  case h_2 => simp at hcp2
  rename_i s' hscan
  have hs' : s' = [] := by
    simp only [List.length_cons] at hcp2
    exact List.length_eq_zero.mp (by omega)
  subst hs'
  have hbody : h₀ ++ (tokPublicKey ++ (40 :: (h₁ ++ (alg ++
      ((chain.map Prod.fst).flatten ++ [41, 41]))))) =
      (h₀ ++ tokPublicKey) ++ (40 :: (h₁ ++ (alg ++
      ((chain.map Prod.fst).flatten ++ [41, 41])))) := by simp
  rw [hbody] at hscan
  have hpeel := strict_peel_atom hS0 (show tokPublicKey.length = 10 from rfl) hscan
      (by simp only [List.length_append, List.length_cons]; omega)
  obtain ⟨ds, hdse, hdsd, hdsv, _⟩ := hS0
  have hdz : ds.head? ≠ some 48 := by
    intro hcon
    apply hpeel.1
    cases ds with
    | nil => simp [valAcc] at hdsv
    | cons d dt =>
      simp at hcon
      rw [hdse, hcon]
      simp
  have hds : ds = [49, 48] := valAcc_ten hdsd hdsv hdz
  have hdse3 : h₀ = [49, 48, 58] := by rw [hdse, hds]; rfl
  subst hdse3
  have hsihead := canonical_head hsi hsine
  -- evaluate agent_shadow_key
  rw [agent_shadow_key.eq_def]
  rw [if_neg (by
    rw [hcp, hsi]
    simp only [List.length_cons, List.length_eq_zero]
    push_neg
    exact ⟨by omega, hsine⟩)]
  simp only
  rw [if_neg (by simp)]
  rw [hS0'.run]
  simp only
  rw [show smatch (tokPublicKey ++ (40 :: (h₁ ++ (alg ++
      ((chain.map Prod.fst).flatten ++ [41, 41]))))) 10 tokPublicKey =
      some (40 :: (h₁ ++ (alg ++ ((chain.map Prod.fst).flatten ++ [41, 41]))))
    from smatch_tok tokPublicKey _]
  simp only
  rw [if_neg (by simp)]
  rw [hS1.run]
  simp only
  rw [List.drop_left alg]
  rw [shadowPairsF_chain chain (fun p hp => (hchain p hp).1) [41, 41] _ (by simp)]
  rw [shadowPairsF_stop41]
  simp only
  refine ⟨_, rfl, [41, 41, 41], ?_, ?_⟩
  · refine Eq.trans (congrArg agent_get_shadow_info ?_)
      (get_shadow_info_eval hS1 hchain hsihead)
    congr 1
    · congr 1
      · congr 1
        · congr 1
          · rw [show (40 :: (([49, 48, 58] : Bytes) ++ (tokPublicKey ++ (40 :: (h₁ ++
                (alg ++ ((chain.map Prod.fst).flatten ++ [41, 41]))))))).drop 14 =
                (40 :: (h₁ ++ (alg ++ (chain.map Prod.fst).flatten))) ++ [41, 41]
              from by simp [tokPublicKey]]
            rw [List.take_left' (by simp [tokPublicKey]; omega)]
        · rw [hsi]
          exact List.take_length si
    · rw [hcp]
      rw [show (40 :: (([49, 48, 58] : Bytes) ++ (tokPublicKey ++ (40 :: (h₁ ++ (alg ++
          ((chain.map Prod.fst).flatten ++ [41, 41]))))))) =
          (40 :: (([49, 48, 58] : Bytes) ++ (tokPublicKey ++ (40 :: (h₁ ++ (alg ++
          (chain.map Prod.fst).flatten)))))) ++ [41, 41] from by simp]
      rw [List.drop_left' (by
        simp only [List.length_append, List.length_cons, List.length_nil]; omega)]
      exact List.take_of_length_le (by
        simp only [List.length_append, List.length_cons, List.length_nil]; omega)
  · rw [canonLen_extend hsi hsine [41, 41, 41]]
    exact List.take_left' rfl

/-- A canonical public key whose single parameter sub-list is itself named
`shadowed` with value `t1-v1`: `(10:public-key(3:rsa(8:shadowed5:t1-v1)))`. -/
def pubBad : Bytes :=
  [40,49,48,58,112,117,98,108,105,99,45,107,101,121,
   40,51,58,114,115,97,
   40,56,58,115,104,97,100,111,119,101,100,53,58,116,49,45,118,49,41,
   41,41]

/-- The buffer `agent_shadow_key` produces on the colliding public key. -/
def c6badrun : Bytes :=
  match agent_shadow_key pubBad siC with
  | .ok v => v
  | .error _ => []

/-- Counterexample to the unconditional shadow round-trip: on a well-formed
canonical public key that already contains a parameter named `shadowed`,
`agent_shadow_key` succeeds but `agent_get_shadow_info` finds the original
parameter first and fails, so it does not return the stored shadow info. -/
theorem shadow_roundtrip_counterexample :
    canonLen pubBad = pubBad.length ∧ canonLen siC = siC.length ∧
    agent_shadow_key pubBad siC = .ok c6badrun ∧
    agent_get_shadow_info c6badrun = .error .InvalidSexp :=
  ⟨by rfl, by rfl, by rfl, by rfl⟩

/-- The parameter pairs `(1:n1:A)(1:e1:B)` of the concrete public key. -/
def chainC : List (Bytes × Bytes) :=
  [([40,49,58,110,49,58,65,41], [110]), ([40,49,58,101,49,58,66,41], [101])]

theorem shadow_get_shadow_info_roundtrip_witness :
    ∃ res, agent_shadow_key (40 :: (([49,48,58] : Bytes) ++ (tokPublicKey ++
        (40 :: (([51,58] : Bytes) ++ (([114,115,97] : Bytes) ++
        ((chainC.map Prod.fst).flatten ++ [41, 41]))))))) siC = .ok res ∧
      ∃ t, agent_get_shadow_info res = .ok (siC ++ t) ∧
        (siC ++ t).take (canonLen (siC ++ t)) = siC :=
  shadow_get_shadow_info_roundtrip rfl
    ⟨[49, 48], rfl, by decide, by decide, by decide⟩
    ⟨[51], rfl, by decide, by decide, by decide⟩
    (by
      intro p hp
      simp only [chainC, List.mem_cons, List.not_mem_nil, or_false] at hp
      rcases hp with rfl | rfl
      · exact ⟨⟨[49, 58], [49, 58], [65], rfl,
          ⟨[49], rfl, by decide, by decide, by decide⟩,
          ⟨[49], rfl, by decide, by decide, by decide⟩⟩, by decide⟩
      · exact ⟨⟨[49, 58], [49, 58], [66], rfl,
          ⟨[49], rfl, by decide, by decide, by decide⟩,
          ⟨[49], rfl, by decide, by decide, by decide⟩⟩, by decide⟩)
    (by rfl) (by rfl) (by decide)

/-- A successful strict scan is also a successful permissive scan with the
same result (the strict scanner only adds failure cases). -/
theorem strict_to_lax :
    ∀ (f : Nat) (s : Bytes) (d : Nat) (out : Bytes),
      sskipF true f s d = some out → sskipF false f s d = some out := by
  intro f
  induction f with
  | zero =>
    intro s d out h
    cases d with
    | zero => simpa [sskipF] using h
    | succ d =>
      cases s with
      | nil => rw [sskipF_nil] at h ⊢; exact h
      | cons c rest => exact absurd h (by simp [sskipF])
  | succ f ih =>
    intro s d out h
    cases d with
    | zero => simpa [sskipF] using h
    | succ d =>
      cases s with
      | nil => rw [sskipF_nil] at h ⊢; exact h
      | cons c rest =>
        simp only [sskipF] at h ⊢
        by_cases h40 : c = 40
        · rw [if_pos h40] at h ⊢; exact ih rest (d + 2) out h
        rw [if_neg h40] at h ⊢
        by_cases h41 : c = 41
        · rw [if_pos h41] at h ⊢; exact ih rest d out h
        rw [if_neg h41] at h ⊢
        rw [if_neg (by simp)]
        by_cases h48 : True ∧ c = 48
        · rw [if_pos (by simpa using h48)] at h; exact absurd h (by simp)
        rw [if_neg (by simpa using h48)] at h
        cases hsn : snext (c :: rest) with
        | none => rw [hsn] at h; exact absurd h (by simp)
        | some v =>
          obtain ⟨n, r⟩ := v
          rw [hsn] at h
          simp only at h ⊢
          exact ih (r.drop n) (d + 1) out h

/-- The canonicality of an accepted key pins the outer header to `"11:"` and
makes every inner component strict: no zero-prefixed length field anywhere,
nothing after the final closing paren, and the post-list span scans
strictly. -/
theorem key_strict_facts
    {h₀ h₁ c₀ c₁ c₂ c₃ c₄ c₅ cm aft : Bytes}
    (hS0 : SnextC h₀ 11) (hS1 : SnextC h₁ 3)
    (hp0 : PairS c₀ [110]) (hp1 : PairS c₁ [101]) (hp2 : PairS c₂ [100])
    (hp3 : PairS c₃ [112]) (hp4 : PairS c₄ [113]) (hp5 : PairS c₅ [117])
    (hcm : SkipsTo false cm 1 0)
    (hcanon : canonLen (40 :: (h₀ ++ (tokPrivateKey ++ (40 :: (h₁ ++ (tokRsa ++
      (c₀ ++ (c₁ ++ (c₂ ++ (c₃ ++ (c₄ ++ (c₅ ++ (41 :: (cm ++ aft)))))))))))))) =
      (40 :: (h₀ ++ (tokPrivateKey ++ (40 :: (h₁ ++ (tokRsa ++
      (c₀ ++ (c₁ ++ (c₂ ++ (c₃ ++ (c₄ ++ (c₅ ++ (41 :: (cm ++
      aft)))))))))))))).length) :
    h₀ = [49, 49, 58] ∧ h₁.head? ≠ some 48 ∧
    PairSZ c₀ [110] ∧ PairSZ c₁ [101] ∧ PairSZ c₂ [100] ∧
    PairSZ c₃ [112] ∧ PairSZ c₄ [113] ∧ PairSZ c₅ [117] ∧
    aft = [] ∧ SkipsTo true cm 1 0 := by
  rw [canonLen] at hcanon
  split at hcanon
  case h_2 => simp at hcanon
  rename_i s' hscan
  have hs' : s' = [] := by
    simp only [List.length_cons] at hcanon
    exact List.length_eq_zero.mp (by omega)
  subst hs'
  rw [show h₀ ++ (tokPrivateKey ++ (40 :: (h₁ ++ (tokRsa ++ (c₀ ++ (c₁ ++ (c₂ ++
      (c₃ ++ (c₄ ++ (c₅ ++ (41 :: (cm ++ aft)))))))))))) =
      (h₀ ++ tokPrivateKey) ++ (40 :: (h₁ ++ (tokRsa ++ (c₀ ++ (c₁ ++ (c₂ ++
      (c₃ ++ (c₄ ++ (c₅ ++ (41 :: (cm ++ aft))))))))))) from by simp] at hscan
  obtain ⟨hz0, hscan1⟩ := strict_peel_atom hS0
    (show tokPrivateKey.length = 11 from rfl) hscan
    (by simp only [List.length_append, List.length_cons]; omega)
  have hscan2 := strict_peel_open hscan1
    (by simp only [List.length_append, List.length_cons]; omega)
  rw [show h₁ ++ (tokRsa ++ (c₀ ++ (c₁ ++ (c₂ ++ (c₃ ++ (c₄ ++ (c₅ ++ (41 :: (cm ++
      aft))))))))) = (h₁ ++ tokRsa) ++ (c₀ ++ (c₁ ++ (c₂ ++ (c₃ ++ (c₄ ++ (c₅ ++
      (41 :: (cm ++ aft)))))))) from by simp] at hscan2
  obtain ⟨hz1, hscan3⟩ := strict_peel_atom hS1 (show tokRsa.length = 3 from rfl) hscan2
    (by simp only [List.length_append, List.length_cons]; omega)
  obtain ⟨hq0, hscan4⟩ := strict_peel_pair hp0 hscan3
    (by simp only [List.length_append, List.length_cons]; omega)
  obtain ⟨hq1, hscan5⟩ := strict_peel_pair hp1 hscan4
    (by simp only [List.length_append, List.length_cons]; omega)
  obtain ⟨hq2, hscan6⟩ := strict_peel_pair hp2 hscan5
    (by simp only [List.length_append, List.length_cons]; omega)
  obtain ⟨hq3, hscan7⟩ := strict_peel_pair hp3 hscan6
    (by simp only [List.length_append, List.length_cons]; omega)
  obtain ⟨hq4, hscan8⟩ := strict_peel_pair hp4 hscan7
    (by simp only [List.length_append, List.length_cons]; omega)
  obtain ⟨hq5, hscan9⟩ := strict_peel_pair hp5 hscan8
    (by simp only [List.length_append, List.length_cons]; omega)
  have hscan10 := strict_peel_close hscan9
    (by simp only [List.length_append, List.length_cons]; omega)
  have hlax := strict_to_lax _ _ _ _ hscan10
  rw [hcm aft _ (by simp only [List.length_append, List.length_cons]; omega),
    sskipF_depth0] at hlax
  have haft : aft = [] := by simpa using hlax
  subst haft
  rw [List.append_nil] at hscan10
  obtain ⟨cc, hcc, hsk⟩ := sskipF_decomp true _ cm 1 [] (by
    simp only [List.length_append, List.length_cons]
    omega) hscan10
  have hccm : cc = cm := by simpa using hcc.symm
  subst hccm
  have hds0 : h₀ = [49, 49, 58] := by
    obtain ⟨ds, hdse, hdsd, hdsv, _⟩ := hS0
    have hdz : ds.head? ≠ some 48 := by
      intro hcon
      apply hz0
      cases ds with
      | nil => simp [valAcc] at hdsv
      | cons d dt =>
        simp at hcon
        rw [hdse, hcon]
        simp
    rw [hdse, valAcc_eleven hdsd hdsv hdz]
    rfl
  exact ⟨hds0, hz1, hq0, hq1, hq2, hq3, hq4, hq5, rfl, hsk⟩

/-- The decimal atom header written by `do_encryption` never starts with a
zero digit. -/
theorem atomE_head_ne_zero {n : Nat} (h0 : 0 < n) :
    (toDec n ++ [58]).head? ≠ some 48 := by
  have hh := toDecF_head_ne_zero (n + 1) n h0 (by omega)
  cases htd : toDec n with
  | nil => simp
  | cons a t =>
    rw [show toDec n = toDecF (n + 1) n from rfl] at htd
    rw [htd] at hh
    simpa using hh

/-- The body of the protected list emitted by `do_encryption` (everything
after its opening paren) scans from depth `d+1` back to depth `d`, strictly
or permissively. -/
theorem plistrest_skipsTo (st : Bool) {salt iv ct : Bytes} {enclen : Nat}
    (hsalt : salt.length = 8) (hiv : iv.length = 16)
    (hct : ct.length = enclen) (h0 : 0 < enclen) (d : Nat) :
    SkipsTo st ((([57,58] : Bytes) ++ tokProtectedStr) ++ ((([50,53,58] : Bytes) ++
      tokModestr) ++ ([40] ++ ([40] ++ ((([52,58] : Bytes) ++ tokSha1) ++
      ((([56,58] : Bytes) ++ salt) ++ ((([50,58] : Bytes) ++ ([57,54] : Bytes)) ++
      ([41] ++ ((([49,54,58] : Bytes) ++ iv) ++ ([41] ++ (((toDec enclen ++ [58]) ++
      ct) ++ [41]))))))))))) (d + 1) d :=
  (skipsTo_atom (show SnextC [57,58] 9 from ⟨[57], rfl, by decide, by decide, by decide⟩)
    (show tokProtectedStr.length = 9 from rfl) (fun _ => by decide) d).comp
  ((skipsTo_atom (show SnextC [50,53,58] 25 from ⟨[50,53], rfl, by decide, by decide, by decide⟩)
    (show tokModestr.length = 25 from rfl) (fun _ => by decide) d).comp
  ((skipsTo_open st d).comp
  ((skipsTo_open st (d + 1)).comp
  ((skipsTo_atom (show SnextC [52,58] 4 from ⟨[52], rfl, by decide, by decide, by decide⟩)
    (show tokSha1.length = 4 from rfl) (fun _ => by decide) (d + 2)).comp
  ((skipsTo_atom (show SnextC [56,58] 8 from ⟨[56], rfl, by decide, by decide, by decide⟩)
    hsalt (fun _ => by decide) (d + 2)).comp
  ((skipsTo_atom (show SnextC [50,58] 2 from ⟨[50], rfl, by decide, by decide, by decide⟩)
    (show ([57,54] : Bytes).length = 2 from rfl) (fun _ => by decide) (d + 2)).comp
  ((skipsTo_close st (d + 2)).comp
  ((skipsTo_atom (show SnextC [49,54,58] 16 from ⟨[49,54], rfl, by decide, by decide, by decide⟩)
    hiv (fun _ => by decide) (d + 1)).comp
  ((skipsTo_close st (d + 1)).comp
  ((skipsTo_atom (show SnextC (toDec enclen ++ [58]) enclen from by
      rw [← hct]
      exact atomE_snextC ct (by intro he; rw [he] at hct; simp at hct; omega))
    hct (fun _ => atomE_head_ne_zero h0) d).comp
  (skipsTo_close st d)))))))))))

/-- The protected list as assembled by `do_encryption`, re-associated into
its parse structure. -/
theorem plist_eq (salt iv ct : Bytes) (enclen : Nat) :
    litProtScaffold1 ++ salt ++ litProtScaffold2 ++ iv ++ [41] ++
      toDec enclen ++ 58 :: ct ++ [41] =
    [40] ++ ((([57,58] : Bytes) ++ tokProtectedStr) ++ ((([50,53,58] : Bytes) ++
      tokModestr) ++ ([40] ++ ([40] ++ ((([52,58] : Bytes) ++ tokSha1) ++
      ((([56,58] : Bytes) ++ salt) ++ ((([50,58] : Bytes) ++ ([57,54] : Bytes)) ++
      ([41] ++ ((([49,54,58] : Bytes) ++ iv) ++ ([41] ++ (((toDec enclen ++ [58]) ++
      ct) ++ [41]))))))))))) := by
  simp [litProtScaffold1, litProtScaffold2, tokProtectedStr, tokModestr, tokSha1]

/-- The canonical-scan certificate for the plaintext built by
`do_encryption` (the two wrapping parens, the parameter pairs, and the
`(hash sha1 MIC)` list). -/
theorem outbody_skipsTo {c₂ c₃ c₄ c₅ mic : Bytes}
    (hq2 : PairSZ c₂ [100]) (hq3 : PairSZ c₃ [112]) (hq4 : PairSZ c₄ [113])
    (hq5 : PairSZ c₅ [117]) (hmic : mic.length = 20) :
    SkipsTo true ([40] ++ ((c₂ ++ (c₃ ++ (c₄ ++ c₅))) ++ ([41] ++ ([40] ++
      ((([52,58] : Bytes) ++ tokHash) ++ ((([52,58] : Bytes) ++ tokSha1) ++
      ((([50,48,58] : Bytes) ++ mic) ++ ([41] ++ ([41] : Bytes))))))))) 1 0 :=
  (skipsTo_open true 0).comp
  (((hq2.skipsToZ 1).comp ((hq3.skipsToZ 1).comp ((hq4.skipsToZ 1).comp
      (hq5.skipsToZ 1)))).comp
  ((skipsTo_close true 1).comp
  ((skipsTo_open true 0).comp
  ((skipsTo_atom (show SnextC [52,58] 4 from ⟨[52], rfl, by decide, by decide, by decide⟩)
    (show tokHash.length = 4 from rfl) (fun _ => by decide) 1).comp
  ((skipsTo_atom (show SnextC [52,58] 4 from ⟨[52], rfl, by decide, by decide, by decide⟩)
    (show tokSha1.length = 4 from rfl) (fun _ => by decide) 1).comp
  ((skipsTo_atom (show SnextC [50,48,58] 20 from ⟨[50,48], rfl, by decide, by decide, by decide⟩)
    hmic (fun _ => by decide) 1).comp
  ((skipsTo_close true 1).comp
  (skipsTo_close true 0))))))))

/-- The canonical-scan certificate for the body of the protected result
buffer assembled by `agent_protect`. -/
theorem resbody_skipsTo {h₁ c₀ c₁ cm salt iv ct : Bytes} {enclen : Nat}
    (hS1 : SnextC h₁ 3) (hz1 : h₁.head? ≠ some 48)
    (hq0 : PairSZ c₀ [110]) (hq1 : PairSZ c₁ [101])
    (hsk : SkipsTo true cm 1 0)
    (hsalt : salt.length = 8) (hiv : iv.length = 16)
    (hct : ct.length = enclen) (h0 : 0 < enclen) :
    SkipsTo true ((([50,49,58] : Bytes) ++ tokProtectedPrivateKey) ++ ([40] ++
      ((h₁ ++ tokRsa) ++ (c₀ ++ (c₁ ++ (([40] ++ ((([57,58] : Bytes) ++
      tokProtectedStr) ++ ((([50,53,58] : Bytes) ++ tokModestr) ++ ([40] ++
      ([40] ++ ((([52,58] : Bytes) ++ tokSha1) ++ ((([56,58] : Bytes) ++ salt) ++
      ((([50,58] : Bytes) ++ ([57,54] : Bytes)) ++ ([41] ++ ((([49,54,58] : Bytes) ++
      iv) ++ ([41] ++ (((toDec enclen ++ [58]) ++ ct) ++ [41])))))))))))) ++
      ([41] ++ cm))))))) 1 0 :=
  (skipsTo_atom (show SnextC [50,49,58] 21 from ⟨[50,49], rfl, by decide, by decide, by decide⟩)
    (show tokProtectedPrivateKey.length = 21 from rfl) (fun _ => by decide) 0).comp
  ((skipsTo_open true 0).comp
  ((skipsTo_atom hS1 (show tokRsa.length = 3 from rfl) (fun _ => hz1) 1).comp
  ((hq0.skipsToZ 1).comp
  ((hq1.skipsToZ 1).comp
  (((skipsTo_open true 1).comp (plistrest_skipsTo true hsalt hiv hct h0 2)).comp
  ((skipsTo_close true 1).comp hsk))))))

end GnuPG
